import Mathlib

/-!
Shallow embedding of `combine_filters.py`: a batch utility that fetches
plaintext filter lists, normalizes each line into a canonical rule form,
deduplicates rules by a SHA-1 fingerprint and writes one combined output
document.  Strings are modelled as their `List Char` data; byte strings as
`List Nat` (each entry < 256).  Python whitespace handling is modelled for
the ASCII whitespace characters.
-/

namespace CombineFilters

/-! ### Character-level helpers (Python `str` semantics on ASCII) -/

/-- ASCII whitespace, the characters matched by Python's `\s`, `str.strip()`
and `str.split()` on ASCII input. -/
def isSpace (c : Char) : Bool :=
  c = ' ' || c = '\t' || c = '\n' || c = '\r' || c = '\x0b' || c = '\x0c'

/-- `str.lower()` restricted to ASCII letters (the code's inputs of
interest): `A`–`Z` map to `a`–`z`, everything else is fixed. -/
def toLowerChar (c : Char) : Char :=
  if 'A' ≤ c && c ≤ 'Z' then Char.ofNat (c.toNat + 32) else c

/-- `str.lower()` on a whole string. -/
def toLowerL (l : List Char) : List Char := l.map toLowerChar

/-- `str.strip()`: remove leading and trailing whitespace. -/
def stripL (l : List Char) : List Char :=
  ((l.dropWhile isSpace).reverse.dropWhile isSpace).reverse

/-- `str.rstrip('.')`: remove all trailing dots. -/
def rstripDots (l : List Char) : List Char :=
  (l.reverse.dropWhile (fun c => c = '.')).reverse

/-- Body of `collapseWs`; the flag records whether the previous character
was whitespace (so a run beyond its first character emits nothing). -/
def collapseAux (prevSpace : Bool) : List Char → List Char
  | [] => []
  | c :: cs =>
    if isSpace c then
      if prevSpace then collapseAux true cs else ' ' :: collapseAux true cs
    else c :: collapseAux false cs

/-- `re.sub(r'\s+', ' ', line)`: replace every maximal whitespace run by a
single space. -/
def collapseWs (l : List Char) : List Char :=
  collapseAux false l

/-- Body of `splitWs`; `cur` is the reversed current token. -/
def splitWsAux (cur : List Char) : List Char → List (List Char)
  | [] => if cur.isEmpty then [] else [cur.reverse]
  | c :: cs =>
    if isSpace c then
      if cur.isEmpty then splitWsAux [] cs else cur.reverse :: splitWsAux [] cs
    else splitWsAux (c :: cur) cs

/-- `str.split()` with no separator: whitespace-separated tokens, no empty
tokens. -/
def splitWs (l : List Char) : List (List Char) :=
  splitWsAux [] l

/-- `s.count(ch)` for a single character. -/
def countChar (ch : Char) (l : List Char) : Nat :=
  l.countP (fun c => c = ch)

/-- One character of the class `[A-Za-z0-9.-]`. -/
def isHostChar (c : Char) : Bool :=
  ('A' ≤ c && c ≤ 'Z') || ('a' ≤ c && c ≤ 'z') || ('0' ≤ c && c ≤ '9') ||
    c = '.' || c = '-'

/-- `re.match(r'^[A-Za-z0-9.-]+$', s)`: non-empty and all characters in the
class. -/
def hostPat (l : List Char) : Bool :=
  !l.isEmpty && l.all isHostChar

/-! ### Lexicographic string order and `sorted` -/

/-- Python string `<`: lexicographic comparison by code point (a strict
prefix is smaller). -/
def lexLt : List Char → List Char → Bool
  | [], [] => false
  | [], _ :: _ => true
  | _ :: _, [] => false
  | a :: as, b :: bs => if a < b then true else if b < a then false else lexLt as bs

/-- Insert into a sorted list (ascending by `lexLt`). -/
def insertSorted (x : List Char) : List (List Char) → List (List Char)
  | [] => [x]
  | y :: ys => if lexLt y x then y :: insertSorted x ys else x :: y :: ys

/-- Python `sorted` on strings: ascending lexicographic insertion sort. -/
def sortStrs : List (List Char) → List (List Char)
  | [] => []
  | x :: xs => insertSorted x (sortStrs xs)

/-! ### Line splitting -/

/-- Generic line splitter: `isB` is the set of line-boundary characters and
a `"\r\n"` pair counts as a single boundary.  A terminal boundary produces
no trailing empty line (Python `splitlines` behaviour). -/
def splitLBF (isB : Char → Bool) (acc : List Char) : Nat → List Char → List (List Char)
  | _, [] => if acc.isEmpty then [] else [acc.reverse]
  | 0, _ :: _ => []
  | fuel + 1, c :: cs =>
    if isB c then
      acc.reverse ::
        splitLBF isB [] fuel
          (if c = '\r' then (match cs with | '\n' :: t => t | _ => cs) else cs)
    else splitLBF isB (c :: acc) fuel cs

/-- The splitter proper; the fuel (one unit per input character) only makes
the recursion structural and never runs out. -/
def splitLB (isB : Char → Bool) (acc : List Char) (l : List Char) :
    List (List Char) :=
  splitLBF isB acc l.length l

/-- Boundary characters of Python `str.splitlines()`. -/
def isLineBnd (c : Char) : Bool :=
  c = '\n' || c = '\r' || c = '\x0b' || c = '\x0c' || c = '\x1c' ||
    c = '\x1d' || c = '\x1e' || c = '\x85' || c = ' ' || c = ' '

/-- `text.splitlines()`. -/
def pySplitlines (l : List Char) : List (List Char) :=
  splitLB isLineBnd [] l

/-- Iterating over an open text file: one item per line, split at newlines
(universal-newline translation folds `"\r\n"` and `"\r"` into `"\n"`); the
trailing newline each item carries is immaterial here because every use
strips the line. -/
def fileLines (l : List Char) : List (List Char) :=
  splitLB (fun c => c = '\n' || c = '\r') [] l

/-! ### The hosts-line regex

`_RX_HOSTS = re.compile(r'^(?:0\.0\.0\.0|127\.0\.0\.1|::1|\:|::)\s+([^\s#]+)', re.IGNORECASE)`

Each alternative is a literal (no cased letters, so `IGNORECASE` is inert);
the regex engine tries alternatives left to right, and after a literal
matches it needs at least one whitespace character and then a non-empty run
of characters that are neither whitespace nor `#` (the captured group). -/

/-- Continue the match after an address literal: `\s+([^\s#]+)`, returning
the captured group. -/
def afterAddr : List Char → Option (List Char)
  | [] => none
  | c :: cs =>
    if isSpace c then
      let tok := (cs.dropWhile isSpace).takeWhile (fun d => !isSpace d && d ≠ '#')
      if tok.isEmpty then none else some tok
    else none

/-- Try one alternative of the alternation. -/
def tryAddr (a l : List Char) : Option (List Char) :=
  if a.isPrefixOf l then afterAddr (l.drop a.length) else none

/-- `_RX_HOSTS.match(line)`, returning `m.group(1)`.  The alternatives are
tried in the order they appear in the pattern. -/
def rxHostsMatch (l : List Char) : Option (List Char) :=
  (tryAddr "0.0.0.0".data l).orElse fun _ =>
  (tryAddr "127.0.0.1".data l).orElse fun _ =>
  (tryAddr "::1".data l).orElse fun _ =>
  (tryAddr ":".data l).orElse fun _ =>
  tryAddr "::".data l

/-! ### The normalizer -/

/-- Option-block canonicalization applied when the line contains exactly one
`$`: `main, opts = line.split('$', 1)`, then the non-empty stripped comma
fragments of `opts.strip()` are sorted and rejoined. -/
def optSort (z : List Char) : List Char :=
  let mn := z.takeWhile (fun c => c ≠ '$')
  let opts := (z.dropWhile (fun c => c ≠ '$')).drop 1
  let frags := (((stripL opts).splitOn ',').map stripL).filter (fun o => !o.isEmpty)
  stripL mn ++ '$' :: List.intercalate [','] (sortStrs frags)

/-- The tail of `normalize` for native filter-syntax lines: collapse
whitespace, lower-case, sort a single option block, final strip. -/
def nativeNorm (l : List Char) : List Char :=
  let z := toLowerL (collapseWs l)
  let z' := if countChar '$' z = 1 then optSort z else z
  stripL z'

/-- `normalize(line)` from `combine_filters.py`, on string data.  Empty
result means "discard this line". -/
def normalizeL (line : List Char) : List Char :=
  let l := stripL line
  if l.isEmpty then []
  else if l.head? = some '!' || l.head? = some '[' then []
  else if l.head? = some '#' then []
  else
    match rxHostsMatch l with
    | some tok =>
      let domain := rstripDots (toLowerL (stripL tok))
      if domain.isEmpty then [] else '|' :: '|' :: (domain ++ ['^'])
    | none =>
      match splitWs l with
      | p0 :: p1 :: _ =>
        if countChar '.' p0 ≥ 1 && hostPat p1 then
          '|' :: '|' :: (rstripDots (toLowerL (stripL p1)) ++ ['^'])
        else nativeNorm l
      | _ => nativeNorm l

/-- `normalize` as a function on `String`. -/
def normalize (s : String) : String :=
  ⟨normalizeL s.data⟩

/-! ### UTF-8 (`str.encode('utf-8')` and `bytes.decode('utf-8', errors=...)`)

Bytes are `Nat`s below 256. -/

/-- UTF-8 encoding of one scalar value (Lean `Char`s are exactly the
Unicode scalar values, as are Python `str` code points of interest). -/
def encodeChar (c : Char) : List Nat :=
  let n := c.toNat
  if n < 0x80 then [n]
  else if n < 0x800 then [0xC0 + n / 64, 0x80 + n % 64]
  else if n < 0x10000 then [0xE0 + n / 4096, 0x80 + n / 64 % 64, 0x80 + n % 64]
  else [0xF0 + n / 262144, 0x80 + n / 4096 % 64, 0x80 + n / 64 % 64, 0x80 + n % 64]

/-- `s.encode('utf-8')`. -/
def utf8Encode (l : List Char) : List Nat :=
  l.flatMap encodeChar

/-- A UTF-8 continuation byte. -/
def isCont (b : Nat) : Bool := 0x80 ≤ b && b ≤ 0xBF

/-- Lower bound of the first continuation byte admitted after lead `b`
(restricted ranges exclude overlong forms and out-of-range values). -/
def cont1Lo (b : Nat) : Nat :=
  if b = 0xE0 then 0xA0 else if b = 0xF0 then 0x90 else 0x80

/-- Upper bound of the first continuation byte admitted after lead `b`
(restricted ranges exclude surrogates and values above U+10FFFF). -/
def cont1Hi (b : Nat) : Nat :=
  if b = 0xED then 0x9F else if b = 0xF4 then 0x8F else 0xBF

/-- UTF-8 decoder underlying `bytes.decode('utf-8', errors=...)`: on each
maximal ill-formed subpart it emits `repl` and resumes (CPython's decoder
follows the Unicode maximal-subpart recommendation).  `repl = []` gives
`errors='ignore'`; `repl = ['�']` gives `errors='replace'`. -/
def decodeUtf8With (repl : List Char) : List Nat → List Char
  | [] => []
  | b :: bs =>
    if b < 0x80 then Char.ofNat b :: decodeUtf8With repl bs
    else if 0xC2 ≤ b && b ≤ 0xDF then
      match bs with
      | [] => repl
      | b1 :: bs1 =>
        if isCont b1 then
          Char.ofNat ((b - 0xC0) * 64 + (b1 - 0x80)) :: decodeUtf8With repl bs1
        else repl ++ decodeUtf8With repl (b1 :: bs1)
    else if 0xE0 ≤ b && b ≤ 0xEF then
      match bs with
      | [] => repl
      | b1 :: bs1 =>
        if cont1Lo b ≤ b1 && b1 ≤ cont1Hi b then
          match bs1 with
          | [] => repl
          | b2 :: bs2 =>
            if isCont b2 then
              Char.ofNat (((b - 0xE0) * 64 + (b1 - 0x80)) * 64 + (b2 - 0x80)) ::
                decodeUtf8With repl bs2
            else repl ++ decodeUtf8With repl (b2 :: bs2)
        else repl ++ decodeUtf8With repl (b1 :: bs1)
    else if 0xF0 ≤ b && b ≤ 0xF4 then
      match bs with
      | [] => repl
      | b1 :: bs1 =>
        if cont1Lo b ≤ b1 && b1 ≤ cont1Hi b then
          match bs1 with
          | [] => repl
          | b2 :: bs2 =>
            if isCont b2 then
              match bs2 with
              | [] => repl
              | b3 :: bs3 =>
                if isCont b3 then
                  Char.ofNat
                      ((((b - 0xF0) * 64 + (b1 - 0x80)) * 64 + (b2 - 0x80)) * 64 +
                        (b3 - 0x80)) ::
                    decodeUtf8With repl bs3
                else repl ++ decodeUtf8With repl (b3 :: bs3)
            else repl ++ decodeUtf8With repl (b2 :: bs2)
        else repl ++ decodeUtf8With repl (b1 :: bs1)
    else repl ++ decodeUtf8With repl bs

/-- `body.decode('utf-8', errors='ignore')`: ill-formed subparts are
dropped. -/
def decodeUtf8Ignore (bs : List Nat) : List Char :=
  decodeUtf8With [] bs

/-- Modelled from the spec: "the raw response body decoded as text with
invalid byte sequences replaced rather than raising" — i.e. the behaviour
of `errors='replace'`, each ill-formed subpart becoming U+FFFD.  Stated for
comparison with the code's `errors='ignore'` decoder. -/
def decodeUtf8Replace (bs : List Nat) : List Char :=
  decodeUtf8With ['�'] bs

/-! ### SHA-1 (`hashlib.sha1(...).hexdigest()`), on 32-bit words as `Nat`
with explicit reduction modulo `2 ^ 32` -/

/-- Truncate to 32 bits. -/
def mask32 (x : Nat) : Nat := x % 4294967296

/-- Rotate a 32-bit word (`x < 2 ^ 32`) left by `n` bits. -/
def rotl32 (n x : Nat) : Nat := mask32 (x * 2 ^ n) + x / 2 ^ (32 - n)

/-- Big-endian 32-bit words from bytes. -/
def bytesToWords : List Nat → List Nat
  | b0 :: b1 :: b2 :: b3 :: rest => (((b0 * 256 + b1) * 256 + b2) * 256 + b3) :: bytesToWords rest
  | _ => []

/-- Body of `chunks64`, with the length of the remaining input as fuel
(each chunk consumes at least one byte). -/
def chunks64F : Nat → List Nat → List (List Nat)
  | _, [] => []
  | 0, _ :: _ => []
  | fuel + 1, b :: bs => (b :: bs).take 64 :: chunks64F fuel ((b :: bs).drop 64)

/-- Split into 64-byte chunks. -/
def chunks64 (l : List Nat) : List (List Nat) :=
  chunks64F l.length l

/-- SHA-1 padding: `0x80`, zeros to 56 mod 64, then the bit length as eight
big-endian bytes. -/
def sha1Pad (msg : List Nat) : List Nat :=
  let l := msg.length
  let bl := 8 * l
  msg ++ 0x80 :: List.replicate ((119 - l % 64) % 64) 0 ++
    [bl / 2 ^ 56 % 256, bl / 2 ^ 48 % 256, bl / 2 ^ 40 % 256, bl / 2 ^ 32 % 256,
      bl / 2 ^ 24 % 256, bl / 2 ^ 16 % 256, bl / 2 ^ 8 % 256, bl % 256]

/-- Extend the 16 message words to 80:
`w[i] = rotl1 (w[i-3] xor w[i-8] xor w[i-14] xor w[i-16])`. -/
def sha1Extend (w : List Nat) : Nat → List Nat
  | 0 => w
  | fuel + 1 =>
    let n := w.length
    sha1Extend
      (w ++ [rotl32 1 ((w.getD (n - 3) 0 ^^^ w.getD (n - 8) 0) ^^^
        (w.getD (n - 14) 0 ^^^ w.getD (n - 16) 0))]) fuel

/-- One SHA-1 round. -/
def sha1Round (st : Nat × Nat × Nat × Nat × Nat) (i wi : Nat) :
    Nat × Nat × Nat × Nat × Nat :=
  let (a, b, c, d, e) := st
  let fk : Nat × Nat :=
    if i < 20 then ((b &&& c) ||| ((b ^^^ 0xFFFFFFFF) &&& d), 0x5A827999)
    else if i < 40 then ((b ^^^ c) ^^^ d, 0x6ED9EBA1)
    else if i < 60 then ((b &&& c) ||| (b &&& d) ||| (c &&& d), 0x8F1BBCDC)
    else ((b ^^^ c) ^^^ d, 0xCA62C1D6)
  (mask32 (rotl32 5 a + fk.1 + e + fk.2 + wi), a, rotl32 30 b, c, d)

/-- Process one 64-byte chunk. -/
def sha1ProcessChunk (h : Nat × Nat × Nat × Nat × Nat) (chunk : List Nat) :
    Nat × Nat × Nat × Nat × Nat :=
  let (h0, h1, h2, h3, h4) := h
  let w := sha1Extend (bytesToWords chunk) 64
  let (a, b, c, d, e) :=
    ((List.range 80).zip w).foldl (fun st p => sha1Round st p.1 p.2) h
  (mask32 (h0 + a), mask32 (h1 + b), mask32 (h2 + c), mask32 (h3 + d), mask32 (h4 + e))

/-- One lower-case hex digit. -/
def hexDigit (n : Nat) : Char :=
  if n < 10 then Char.ofNat (48 + n) else Char.ofNat (87 + n)

/-- Eight lower-case hex digits of a 32-bit word. -/
def word8Hex (w : Nat) : List Char :=
  (List.range 8).map fun i => hexDigit (w / 16 ^ (7 - i) % 16)

/-- `hashlib.sha1(bytes).hexdigest()`. -/
def sha1Hex (msg : List Nat) : String :=
  let (h0, h1, h2, h3, h4) :=
    (chunks64 (sha1Pad msg)).foldl sha1ProcessChunk
      (0x67452301, 0xEFCDAB89, 0x98BADCFE, 0x10325476, 0xC3D2E1F0)
  ⟨[h0, h1, h2, h3, h4].flatMap word8Hex⟩

/-- `canonical_key(line)`: SHA-1 hex digest of the UTF-8 encoding of the
normalized line. -/
def canonical_key (line : String) : String :=
  sha1Hex (utf8Encode line.data)

/-! ### Fetching and the main run -/

/-- The outcome of the HTTP GET inside `fetch`: a raw body on success, or a
raised `HTTPError`/`URLError` (timeout, DNS failure, HTTP error status). -/
inductive FetchResult where
  | ok (body : List Nat)
  | err (msg : String)

/-- `fetch(url)`: the decoded body on success; on any transport or protocol
failure the handler logs a warning and returns empty text. -/
def fetch (r : FetchResult) : String :=
  match r with
  | .ok body => ⟨decodeUtf8Ignore body⟩
  | .err _ => ""

/-- The generated header block `HEAD` (the timestamp is an input of the
model). -/
def HEAD (ts : String) : List String :=
  ["! Combined filter list generated " ++ ts ++ "Z",
    "! Sources listed in sources.txt",
    "! Normalization: lowercased, collapsed whitespace, hosts -> ||domain^ conversion where applicable",
    "! --- custom rules below ---",
    ""]

/-- `custom_overrides` (empty in the code). -/
def customOverrides : List String := []

/-- One line through normalization and deduplication: the state is
`(seen, out_lines)`; a non-discarded rule whose `canonical_key` is not yet
in `seen` is appended to `out_lines` and its key recorded. -/
def step (st : List String × List String) (raw : String) :
    List String × List String :=
  let n := normalize raw
  if n = "" then st
  else
    let key := canonical_key n
    if key ∈ st.1 then st
    else (key :: st.1, st.2 ++ [n])

/-- Process one fetched document: skipped wholesale when empty, otherwise
each line of `text.splitlines()` goes through `step`. -/
def processText (st : List String × List String) (text : String) :
    List String × List String :=
  if text = "" then st
  else (pySplitlines text.data).foldl (fun st raw => step st ⟨raw⟩) st

/-- The output lines assembled by `main` given the loaded source list and
the network (a map from URL to GET outcome): header, custom overrides, then
each source's deduplicated rules in order. -/
def mainOutLines (ts : String) (sources : List String)
    (net : String → FetchResult) : List String :=
  let st0 := customOverrides.foldl step (([] : List String), HEAD ts)
  (sources.foldl (fun st url => processText st (fetch (net url))) st0).2

/-- Loading `sources.txt`: strip each line, keep those that are non-empty
and do not start with `#` (`l.strip().startswith('#')` is exactly "the
first character is `#`"). -/
def loadSources (txt : String) : List String :=
  (((fileLines txt.data).map stripL).filter
    fun l => !l.isEmpty && l.head? ≠ some '#').map fun l => (⟨l⟩ : String)

/-- Observable outcome of a run: the text written to
`combined-filters.txt` (`none` when nothing is written) and the diagnostic
messages printed to stderr. -/
structure RunResult where
  written : Option (List String)
  diags : List String
  deriving DecidableEq

/-- `main()`: a missing `sources.txt` (`sourcesFile = none`) is reported
and the run returns before touching the output file; otherwise the sources
are loaded, fetched and combined, and the result written. -/
def mainRun (ts : String) (sourcesFile : Option String)
    (net : String → FetchResult) : RunResult :=
  match sourcesFile with
  | none => { written := none, diags := ["sources.txt not found"] }
  | some txt =>
    let sources := loadSources txt
    let out := mainOutLines ts sources net
    { written := some out
      diags :=
        (sources.flatMap fun u =>
          ("Fetching " ++ u) ::
            (match net u with
             | .err e => ["Warning: failed to fetch " ++ u ++ ": " ++ e]
             | .ok _ => [])) ++
          ["Wrote " ++ toString out.length ++ " lines to combined-filters.txt"] }

/-! ## Character-level lemmas -/

theorem char_lt_iff_toNat (a b : Char) : a < b ↔ a.toNat < b.toNat := by
  rw [Char.lt_def, UInt32.lt_def]
  simp [Char.toNat, UInt32.toNat, BitVec.lt_def]

theorem char_le_iff_toNat (a b : Char) : a ≤ b ↔ a.toNat ≤ b.toNat := by
  rw [Char.le_def, UInt32.le_def]
  simp [Char.toNat, UInt32.toNat, BitVec.le_def]

theorem char_eq_of_toNat {a b : Char} (h : a.toNat = b.toNat) : a = b := by
  apply Char.eq_of_val_eq
  apply UInt32.eq_of_toBitVec_eq
  exact BitVec.toNat_injective h

theorem char_eq_iff_toNat (a b : Char) : a = b ↔ a.toNat = b.toNat :=
  ⟨fun h => h ▸ rfl, char_eq_of_toNat⟩

theorem char_toNat_lt (c : Char) : c.toNat < 1114112 := by
  rcases c.valid with h | ⟨_, h2⟩
  · exact Nat.lt_trans h (by norm_num)
  · exact h2

theorem char_toNat_valid (c : Char) : c.toNat < 55296 ∨ (57344 ≤ c.toNat ∧ c.toNat < 1114112) :=
  c.valid

theorem toNat_ofNat_valid {n : Nat} (h : n.isValidChar) : (Char.ofNat n).toNat = n := by
  simp only [Char.ofNat, dif_pos h]
  simp [Char.ofNatAux, Char.toNat, UInt32.toNat, BitVec.toNat_ofNatLt]

theorem toLowerChar_toNat (c : Char) :
    (toLowerChar c).toNat =
      if 65 ≤ c.toNat ∧ c.toNat ≤ 90 then c.toNat + 32 else c.toNat := by
  have eA : 'A'.toNat = 65 := by decide
  have eZ : 'Z'.toNat = 90 := by decide
  unfold toLowerChar
  by_cases h : 65 ≤ c.toNat ∧ c.toNat ≤ 90
  · have hb : ('A' ≤ c && c ≤ 'Z') = true := by
      simp only [Bool.and_eq_true, decide_eq_true_eq]
      exact ⟨(char_le_iff_toNat 'A' c).mpr (by omega), (char_le_iff_toNat c 'Z').mpr (by omega)⟩
    rw [if_pos hb, if_pos h]
    exact toNat_ofNat_valid (Or.inl (by omega))
  · have hb : ¬ (('A' ≤ c && c ≤ 'Z') = true) := by
      simp only [Bool.and_eq_true, decide_eq_true_eq]
      rintro ⟨h1, h2⟩
      rw [char_le_iff_toNat, eA] at h1
      rw [char_le_iff_toNat, eZ] at h2
      exact h ⟨h1, h2⟩
    rw [if_neg hb, if_neg h]

/-- `toLowerChar` either fixes the character or maps an upper-case letter to
the lower-case letter 32 code points up. -/
theorem toLowerChar_cases (c : Char) :
    toLowerChar c = c ∨
      (65 ≤ c.toNat ∧ c.toNat ≤ 90 ∧ (toLowerChar c).toNat = c.toNat + 32) := by
  have h := toLowerChar_toNat c
  by_cases hc : 65 ≤ c.toNat ∧ c.toNat ≤ 90
  · right
    exact ⟨hc.1, hc.2, by rw [h, if_pos hc]⟩
  · left
    exact char_eq_of_toNat (by rw [h, if_neg hc])

/-- A character outside the lower-case range is `toLowerChar`-reachable
only from itself. -/
theorem toLowerChar_preimage {c d : Char} (hc : c.toNat < 97 ∨ 122 < c.toNat)
    (h : toLowerChar d = c) : d = c := by
  rcases toLowerChar_cases d with h' | ⟨_, h2, h3⟩
  · rw [← h', h]
  · exfalso
    have : c.toNat = d.toNat + 32 := by rw [← h, h3]
    omega

theorem toLowerChar_idem (c : Char) : toLowerChar (toLowerChar c) = toLowerChar c := by
  rcases toLowerChar_cases c with h | ⟨_, h2, h3⟩
  · exact congrArg toLowerChar h
  · rcases toLowerChar_cases (toLowerChar c) with h' | ⟨h1', h2', _⟩
    · exact h'
    · omega

theorem isSpace_iff_toNat (c : Char) :
    isSpace c =
      (c.toNat = 32 || c.toNat = 9 || c.toNat = 10 || c.toNat = 13 ||
        c.toNat = 11 || c.toNat = 12) := by
  have e : (' '.toNat = 32 ∧ '\t'.toNat = 9 ∧ '\n'.toNat = 10 ∧ '\r'.toNat = 13 ∧
      '\x0b'.toNat = 11 ∧ '\x0c'.toNat = 12) := by decide
  obtain ⟨e1, e2, e3, e4, e5, e6⟩ := e
  refine Bool.eq_iff_iff.mpr ?_
  unfold isSpace
  simp only [Bool.or_eq_true, decide_eq_true_eq, char_eq_iff_toNat, e1, e2, e3, e4, e5, e6]

theorem isSpace_toLowerChar (c : Char) : isSpace (toLowerChar c) = isSpace c := by
  rcases toLowerChar_cases c with h | ⟨h1, h2, h3⟩
  · rw [h]
  · rw [isSpace_iff_toNat, isSpace_iff_toNat, h3]
    refine Bool.eq_iff_iff.mpr ?_
    simp only [Bool.or_eq_true, decide_eq_true_eq]
    omega

theorem isHostChar_toLowerChar (c : Char) : isHostChar (toLowerChar c) = isHostChar c := by
  rcases toLowerChar_cases c with h | ⟨h1, h2, h3⟩
  · rw [h]
  · have e : ('A'.toNat = 65 ∧ 'Z'.toNat = 90 ∧ 'a'.toNat = 97 ∧ 'z'.toNat = 122 ∧
        '0'.toNat = 48 ∧ '9'.toNat = 57 ∧ '.'.toNat = 46 ∧ '-'.toNat = 45) := by decide
    obtain ⟨e1, e2, e3, e4, e5, e6, e7, e8⟩ := e
    refine Bool.eq_iff_iff.mpr ?_
    unfold isHostChar
    simp only [Bool.or_eq_true, Bool.and_eq_true, decide_eq_true_eq, char_eq_iff_toNat,
      char_le_iff_toNat, h3, e1, e2, e3, e4, e5, e6, e7, e8]
    omega

/-! ## `stripL` and `rstripDots` lemmas -/

theorem dropWhile_head_false {p : Char → Bool} {l : List Char} {c : Char} {cs : List Char}
    (h : l.dropWhile p = c :: cs) : p c = false := by
  have hh := List.head?_dropWhile_not p l
  rw [h] at hh
  exact hh

theorem dropWhile_eq_self_of_head {p : Char → Bool} {m : List Char}
    (h : ∀ c, m.head? = some c → p c = false) : m.dropWhile p = m := by
  cases m with
  | nil => rfl
  | cons c cs => simp [List.dropWhile_cons, h c rfl]

theorem stripL_sublist (l : List Char) : (stripL l).Sublist l := by
  unfold stripL
  have h1 : ((l.dropWhile isSpace).reverse.dropWhile isSpace).reverse.Sublist
      (l.dropWhile isSpace).reverse.reverse :=
    (List.dropWhile_sublist _).reverse
  rw [List.reverse_reverse] at h1
  exact h1.trans (List.dropWhile_sublist _)

theorem mem_stripL {l : List Char} {c : Char} (h : c ∈ stripL l) : c ∈ l :=
  (stripL_sublist l).mem h

theorem rstripDots_sublist (l : List Char) : (rstripDots l).Sublist l := by
  unfold rstripDots
  have h1 : (l.reverse.dropWhile (fun c => c = '.')).reverse.Sublist l.reverse.reverse :=
    (List.dropWhile_sublist _).reverse
  rw [List.reverse_reverse] at h1
  exact h1

theorem mem_rstripDots {l : List Char} {c : Char} (h : c ∈ rstripDots l) : c ∈ l :=
  (rstripDots_sublist l).mem h

theorem stripL_head_not_space {l c : _} {cs : List Char} (h : stripL l = c :: cs) :
    isSpace c = false := by
  unfold stripL at h
  have h1 : ((l.dropWhile isSpace).reverse.dropWhile isSpace).getLast? = some c := by
    rw [← List.head?_reverse, h]
    rfl
  have hne : (l.dropWhile isSpace).reverse.dropWhile isSpace ≠ [] := by
    intro he
    rw [he] at h1
    simp at h1
  obtain ⟨t, ht⟩ := (List.dropWhile_suffix (l := (l.dropWhile isSpace).reverse) isSpace)
  have h2 : ((l.dropWhile isSpace).reverse).getLast? = some c := by
    rw [← ht, List.getLast?_append_of_ne_nil t hne]
    exact h1
  rw [List.getLast?_reverse] at h2
  have h3 := List.head?_dropWhile_not isSpace l
  rw [h2] at h3
  exact h3

theorem stripL_getLast_not_space {l : List Char} {c : Char}
    (h : (stripL l).getLast? = some c) : isSpace c = false := by
  unfold stripL at h
  rw [List.getLast?_reverse] at h
  have h3 := List.head?_dropWhile_not isSpace (l.dropWhile isSpace).reverse
  rw [h] at h3
  exact h3

theorem stripL_eq_self {l : List Char}
    (h1 : ∀ c, l.head? = some c → isSpace c = false)
    (h2 : ∀ c, l.getLast? = some c → isSpace c = false) : stripL l = l := by
  unfold stripL
  rw [dropWhile_eq_self_of_head h1]
  rw [dropWhile_eq_self_of_head (by
    intro c hc
    rw [List.head?_reverse] at hc
    exact h2 c hc)]
  exact List.reverse_reverse l

theorem stripL_of_all_not_space {l : List Char} (h : ∀ c ∈ l, isSpace c = false) :
    stripL l = l :=
  stripL_eq_self
    (fun c hc => h c (List.mem_of_mem_head? (by rw [hc]; exact Option.mem_some_self c)))
    (fun c hc => h c (List.mem_of_getLast?_eq_some hc))

theorem rstripDots_getLast {l : List Char} {c : Char}
    (h : (rstripDots l).getLast? = some c) : c ≠ '.' := by
  unfold rstripDots at h
  rw [List.getLast?_reverse] at h
  have h3 := List.head?_dropWhile_not (fun c => decide (c = '.')) l.reverse
  rw [h] at h3
  simpa using h3

/-! ## `collapseWs` lemmas -/

theorem collapseAux_cons (b : Bool) (c : Char) (cs : List Char) :
    collapseAux b (c :: cs) =
      if isSpace c then
        (if b then collapseAux true cs else ' ' :: collapseAux true cs)
      else c :: collapseAux false cs := rfl

theorem collapseAux_true_eq (l : List Char) :
    collapseAux true l = collapseAux false (l.dropWhile isSpace) := by
  induction l with
  | nil => rfl
  | cons c cs ih =>
    by_cases hc : isSpace c
    · simp [collapseAux, hc, List.dropWhile_cons, ih]
    · simp [collapseAux, hc, List.dropWhile_cons]

theorem collapseWs_cons (c : Char) (cs : List Char) :
    collapseWs (c :: cs) =
      if isSpace c then ' ' :: collapseWs (cs.dropWhile isSpace)
      else c :: collapseWs cs := by
  unfold collapseWs
  by_cases hc : isSpace c
  · simp [collapseAux, hc, collapseAux_true_eq]
  · simp [collapseAux, hc]

theorem collapseAux_idem (l : List Char) : ∀ b,
    collapseAux b (collapseAux b l) = collapseAux b l := by
  induction l with
  | nil => intro b; rfl
  | cons c cs ih =>
    intro b
    have hsp : isSpace ' ' = true := by decide
    by_cases hc : isSpace c
    · cases b with
      | true => rw [collapseAux_cons, if_pos hc, if_pos rfl, ih true]
      | false =>
        rw [collapseAux_cons, if_pos hc, if_neg (by simp), collapseAux_cons, if_pos hsp,
          if_neg (by simp), ih true]
    · rw [collapseAux_cons, if_neg (by simp [hc]), collapseAux_cons, if_neg (by simp [hc]),
        ih false]

theorem collapseWs_idem (l : List Char) : collapseWs (collapseWs l) = collapseWs l :=
  collapseAux_idem l false

theorem collapseAux_toLower (l : List Char) : ∀ b,
    collapseAux b (toLowerL l) = toLowerL (collapseAux b l) := by
  induction l with
  | nil => intro b; rfl
  | cons c cs ih =>
    intro b
    show collapseAux b (toLowerChar c :: toLowerL cs) = _
    by_cases hc : isSpace c
    · have hc' : isSpace (toLowerChar c) = true := by rw [isSpace_toLowerChar]; exact hc
      cases b with
      | true => simp [collapseAux, hc', hc, ih]
      | false =>
        simp only [collapseAux, hc', hc, if_pos]
        rw [ih true]
        rfl
    · have hc' : isSpace (toLowerChar c) = false := by rw [isSpace_toLowerChar]; simpa using hc
      simp only [collapseAux, hc', hc, Bool.false_eq_true, if_neg, ite_false]
      rw [ih false]
      rfl

theorem collapseWs_toLower (l : List Char) :
    collapseWs (toLowerL l) = toLowerL (collapseWs l) :=
  collapseAux_toLower l false

theorem collapseAux_getLast {l : List Char} {d : Char} : ∀ b,
    l.getLast? = some d → isSpace d = false →
    (collapseAux b l).getLast? = some d := by
  induction l with
  | nil => intro b h _; simp at h
  | cons c cs ih =>
    intro b h hd
    cases cs with
    | nil =>
      simp only [List.getLast?_singleton, Option.some_inj] at h
      subst h
      simp [collapseAux, hd]
    | cons c' cs' =>
      rw [List.getLast?_cons_cons] at h
      have htail : ∀ b', (collapseAux b' (c' :: cs')).getLast? = some d := fun b' => ih b' h hd
      have hne : ∀ b', collapseAux b' (c' :: cs') ≠ [] := by
        intro b' he
        have := htail b'
        rw [he] at this
        simp at this
      rw [collapseAux_cons]
      by_cases hc : isSpace c
      · rw [if_pos hc]
        cases b with
        | true => rw [if_pos rfl]; exact htail true
        | false =>
          rw [if_neg (by simp)]
          obtain ⟨x, xs, hx⟩ := List.exists_cons_of_ne_nil (hne true)
          rw [hx, List.getLast?_cons_cons, ← hx]
          exact htail true
      · rw [if_neg (by simp [hc])]
        obtain ⟨x, xs, hx⟩ := List.exists_cons_of_ne_nil (hne false)
        rw [hx, List.getLast?_cons_cons, ← hx]
        exact htail false

/-! ## `splitWs` lemmas -/

theorem splitWsAux_cons (cur : List Char) (c : Char) (cs : List Char) :
    splitWsAux cur (c :: cs) =
      if isSpace c then
        (if cur.isEmpty then splitWsAux [] cs else cur.reverse :: splitWsAux [] cs)
      else splitWsAux (c :: cur) cs := rfl

theorem splitWsAux_dropWhile_spaces (l : List Char) :
    splitWsAux [] (l.dropWhile isSpace) = splitWsAux [] l := by
  induction l with
  | nil => rfl
  | cons c cs ih =>
    by_cases hc : isSpace c
    · rw [List.dropWhile_cons, if_pos hc, ih, splitWsAux_cons, if_pos hc, if_pos (by rfl)]
    · rw [List.dropWhile_cons, if_neg (by simp [hc])]

theorem splitWsAux_ne_nil_cur (l : List Char) : ∀ cur, cur ≠ [] →
    splitWsAux cur l =
      (cur.reverse ++ l.takeWhile (fun d => !isSpace d)) ::
        splitWsAux [] (l.dropWhile (fun d => !isSpace d)) := by
  induction l with
  | nil =>
    intro cur h
    show (if cur.isEmpty then [] else [cur.reverse]) = _
    rw [if_neg (by simpa using h)]
    simp [splitWsAux]
  | cons c cs ih =>
    intro cur h
    by_cases hc : isSpace c
    · rw [splitWsAux_cons, if_pos hc, if_neg (by simpa using h)]
      rw [List.takeWhile_cons, if_neg (by simp [hc]), List.dropWhile_cons,
        if_neg (by simp [hc]), List.append_nil]
      rw [splitWsAux_cons, if_pos hc, if_pos (by rfl)]
    · rw [splitWsAux_cons, if_neg (by simp [hc]), ih (c :: cur) (by simp)]
      rw [List.takeWhile_cons, if_pos (by simp [hc]), List.dropWhile_cons,
        if_pos (by simp [hc])]
      simp

theorem splitWs_cons (c : Char) (cs : List Char) :
    splitWs (c :: cs) =
      if isSpace c then splitWs cs
      else (c :: cs.takeWhile (fun d => !isSpace d)) ::
        splitWs (cs.dropWhile (fun d => !isSpace d)) := by
  unfold splitWs
  rw [splitWsAux_cons]
  by_cases hc : isSpace c
  · rw [if_pos hc, if_pos hc, if_pos (by rfl)]
  · rw [if_neg (by simp [hc]), if_neg (by simp [hc]), splitWsAux_ne_nil_cur cs [c] (by simp)]
    rfl

theorem splitWsAux_toLower (l : List Char) : ∀ cur,
    splitWsAux (toLowerL cur) (toLowerL l) = (splitWsAux cur l).map toLowerL := by
  induction l with
  | nil =>
    intro cur
    show (if (toLowerL cur).isEmpty then [] else [(toLowerL cur).reverse]) = _
    by_cases hcur : cur.isEmpty
    · rw [if_pos (by simpa [toLowerL] using hcur)]
      show _ = (if cur.isEmpty then [] else [cur.reverse]).map toLowerL
      rw [if_pos hcur]
      rfl
    · rw [if_neg (by simpa [toLowerL] using hcur)]
      show _ = (if cur.isEmpty then [] else [cur.reverse]).map toLowerL
      rw [if_neg hcur]
      simp [toLowerL, List.map_reverse]
  | cons c cs ih =>
    intro cur
    show splitWsAux (toLowerL cur) (toLowerChar c :: toLowerL cs) = _
    rw [splitWsAux_cons, splitWsAux_cons, isSpace_toLowerChar]
    by_cases hc : isSpace c
    · rw [if_pos hc, if_pos hc]
      by_cases hcur : cur.isEmpty
      · rw [if_pos (by simpa [toLowerL] using hcur), if_pos hcur]
        exact ih []
      · rw [if_neg (by simpa [toLowerL] using hcur), if_neg hcur]
        have h1 : splitWsAux [] (toLowerL cs) = List.map toLowerL (splitWsAux [] cs) := ih []
        rw [h1, List.map_cons]
        congr 1
        simp [toLowerL]
    · rw [if_neg (by simp [hc]), if_neg (by simp [hc])]
      exact ih (c :: cur)

theorem splitWs_toLower (l : List Char) :
    splitWs (toLowerL l) = (splitWs l).map toLowerL := by
  have := splitWsAux_toLower l []
  simpa [toLowerL, splitWs] using this

theorem splitWsAux_collapse (l cur : List Char) :
    splitWsAux cur (collapseAux false l) = splitWsAux cur l := by
  suffices H : ∀ n l cur, List.length l ≤ n →
      splitWsAux cur (collapseAux false l) = splitWsAux cur l from
    H l.length l cur le_rfl
  intro n
  induction n with
  | zero =>
    intro l cur h
    have : l = [] := List.eq_nil_of_length_eq_zero (Nat.le_zero.mp h)
    subst this
    rfl
  | succ n ih =>
    intro l cur h
    cases l with
    | nil => rfl
    | cons c cs =>
      simp only [List.length_cons] at h
      by_cases hc : isSpace c
      · rw [collapseAux_cons, if_pos hc, if_neg (by simp), collapseAux_true_eq]
        rw [splitWsAux_cons, splitWsAux_cons, if_pos (show isSpace ' ' = true by decide),
          if_pos hc]
        have hrec : splitWsAux [] (collapseAux false (cs.dropWhile isSpace)) =
            splitWsAux [] cs := by
          rw [ih (cs.dropWhile isSpace) []
            (le_trans (List.dropWhile_sublist _).length_le (by omega))]
          exact splitWsAux_dropWhile_spaces cs
        by_cases hcur : cur.isEmpty
        · rw [if_pos hcur, if_pos hcur, hrec]
        · rw [if_neg hcur, if_neg hcur, hrec]
      · rw [collapseAux_cons, if_neg (by simp [hc])]
        rw [splitWsAux_cons, splitWsAux_cons, if_neg (by simp [hc]), if_neg (by simp [hc])]
        exact ih cs (c :: cur) (by omega)

theorem splitWs_collapse (l : List Char) : splitWs (collapseWs l) = splitWs l :=
  splitWsAux_collapse l []

/-! ## Lexicographic order and sorting lemmas -/

theorem lexLt_asymm : ∀ {a b : List Char}, lexLt a b = true → lexLt b a = false := by
  intro a
  induction a with
  | nil =>
    intro b h
    cases b with
    | nil => simp [lexLt] at h
    | cons y bs => simp [lexLt]
  | cons x as ih =>
    intro b h
    cases b with
    | nil => simp [lexLt] at h
    | cons y bs =>
      simp only [lexLt] at h ⊢
      by_cases hxy : x < y
      · rw [if_neg (lt_asymm hxy), if_pos hxy]
      · rw [if_neg hxy] at h
        by_cases hyx : y < x
        · rw [if_pos hyx] at h
          exact absurd h (by simp)
        · rw [if_neg hyx] at h
          rw [if_neg hyx, if_neg hxy]
          exact ih h

theorem lexLt_antisymm : ∀ {a b : List Char},
    lexLt a b = false → lexLt b a = false → a = b := by
  intro a
  induction a with
  | nil =>
    intro b h1 _
    cases b with
    | nil => rfl
    | cons y bs => simp [lexLt] at h1
  | cons x as ih =>
    intro b h1 h2
    cases b with
    | nil => simp [lexLt] at h2
    | cons y bs =>
      simp only [lexLt] at h1 h2
      by_cases hxy : x < y
      · rw [if_pos hxy] at h1
        exact absurd h1 (by simp)
      · by_cases hyx : y < x
        · rw [if_pos hyx] at h2
          exact absurd h2 (by simp)
        · rw [if_neg hxy, if_neg hyx] at h1
          have hx : x = y := le_antisymm (not_lt.mp hyx) (not_lt.mp hxy)
          rw [if_neg hyx, if_neg hxy] at h2
          rw [hx, ih h1 h2]

theorem lexLt_le_trans : ∀ {a b c : List Char},
    lexLt b a = false → lexLt c b = false → lexLt c a = false := by
  intro a
  induction a with
  | nil =>
    intro b c _ _
    cases c with
    | nil => rfl
    | cons z zs =>
      cases b with
      | nil => simp [lexLt]
      | cons y bs => simp [lexLt]
  | cons x as ih =>
    intro b c h1 h2
    cases b with
    | nil => simp [lexLt] at h1
    | cons y bs =>
      cases c with
      | nil => simp [lexLt] at h2
      | cons z zs =>
        simp only [lexLt] at h1 h2 ⊢
        have hyx : ¬ y < x := by
          intro hlt
          rw [if_pos hlt] at h1
          simp at h1
        have hzy : ¬ z < y := by
          intro hlt
          rw [if_pos hlt] at h2
          simp at h2
        have hzx : ¬ z < x := fun hlt =>
          hzy (lt_of_lt_of_le hlt (not_lt.mp hyx))
        rw [if_neg hzx]
        by_cases hxz : x < z
        · rw [if_pos hxz]
        · rw [if_neg hxz]
          have hxz' : x = z := le_antisymm (not_lt.mp hzx) (not_lt.mp hxz)
          have hxy : ¬ x < y := fun hlt => hzy (hxz' ▸ hlt)
          have hyz : ¬ y < z := fun hlt => hyx (hxz'.symm ▸ hlt)
          rw [if_neg hyx, if_neg hxy] at h1
          rw [if_neg hzy, if_neg hyz] at h2
          exact ih h1 h2

theorem insertSorted_perm (x : List Char) (l : List (List Char)) :
    (insertSorted x l).Perm (x :: l) := by
  induction l with
  | nil => exact List.Perm.refl _
  | cons y ys ih =>
    show (if lexLt y x then y :: insertSorted x ys else x :: y :: ys).Perm _
    by_cases h : lexLt y x
    · rw [if_pos h]
      exact (ih.cons y).trans (List.Perm.swap x y ys)
    · rw [if_neg h]

theorem sortStrs_perm (l : List (List Char)) : (sortStrs l).Perm l := by
  induction l with
  | nil => exact List.Perm.refl _
  | cons x xs ih =>
    show (insertSorted x (sortStrs xs)).Perm _
    exact (insertSorted_perm x (sortStrs xs)).trans (ih.cons x)

theorem insertSorted_sorted {x : List Char} {l : List (List Char)}
    (h : l.Pairwise (fun a b => lexLt b a = false)) :
    (insertSorted x l).Pairwise (fun a b => lexLt b a = false) := by
  induction l with
  | nil => simp [insertSorted]
  | cons y ys ih =>
    rw [List.pairwise_cons] at h
    obtain ⟨hy, hys⟩ := h
    show (if lexLt y x then y :: insertSorted x ys else x :: y :: ys).Pairwise _
    by_cases hyx : lexLt y x
    · rw [if_pos hyx]
      rw [List.pairwise_cons]
      refine ⟨?_, ih hys⟩
      intro b hb
      have hb' : b ∈ x :: ys := (insertSorted_perm x ys).mem_iff.mp hb
      rcases List.mem_cons.mp hb' with rfl | hbys
      · exact lexLt_asymm hyx
      · exact hy b hbys
    · rw [if_neg hyx]
      rw [List.pairwise_cons]
      refine ⟨?_, List.pairwise_cons.mpr ⟨hy, hys⟩⟩
      intro b hb
      rcases List.mem_cons.mp hb with rfl | hbys
      · exact Bool.of_not_eq_true hyx
      · exact lexLt_le_trans (Bool.of_not_eq_true hyx) (hy b hbys)

theorem sortStrs_sorted (l : List (List Char)) :
    (sortStrs l).Pairwise (fun a b => lexLt b a = false) := by
  induction l with
  | nil => simp [sortStrs]
  | cons x xs ih => exact insertSorted_sorted ih

/-! ## Hosts-regex computation lemmas -/

theorem afterAddr_cons (c : Char) (cs : List Char) :
    afterAddr (c :: cs) =
      if isSpace c then
        (if ((cs.dropWhile isSpace).takeWhile (fun d => !isSpace d && d ≠ '#')).isEmpty
          then none
          else some ((cs.dropWhile isSpace).takeWhile (fun d => !isSpace d && d ≠ '#')))
      else none := rfl

theorem afterAddr_nonspace {c : Char} {cs : List Char} (h : isSpace c = false) :
    afterAddr (c :: cs) = none := by
  rw [afterAddr_cons, if_neg (by simp [h])]

theorem afterAddr_of_decomp {ws tok rest : List Char}
    (hws : ws ≠ []) (hwsall : ∀ c ∈ ws, isSpace c = true)
    (htok : tok ≠ []) (htokall : ∀ c ∈ tok, isSpace c = false ∧ c ≠ '#')
    (hrest : rest = [] ∨ ∃ c cs, rest = c :: cs ∧ (isSpace c = true ∨ c = '#')) :
    afterAddr (ws ++ (tok ++ rest)) = some tok := by
  obtain ⟨w, ws', rfl⟩ := List.exists_cons_of_ne_nil hws
  have hw : isSpace w = true := hwsall w (List.mem_cons_self w ws')
  rw [List.cons_append, afterAddr_cons, if_pos hw]
  have hdrop : (ws' ++ (tok ++ rest)).dropWhile isSpace = tok ++ rest := by
    rw [List.dropWhile_append_of_pos (fun c hc => hwsall c (List.mem_cons_of_mem w hc))]
    obtain ⟨t0, tok', rfl⟩ := List.exists_cons_of_ne_nil htok
    rw [List.cons_append, List.dropWhile_cons,
      if_neg (by simp [(htokall t0 (List.mem_cons_self t0 tok')).1])]
  rw [hdrop]
  have htake : (tok ++ rest).takeWhile (fun d => !isSpace d && d ≠ '#') = tok := by
    rw [List.takeWhile_append_of_pos (by
      intro a ha
      have := htokall a ha
      simp [this.1, this.2])]
    have hr : rest.takeWhile (fun d => !isSpace d && d ≠ '#') = [] := by
      rcases hrest with rfl | ⟨c, cs, rfl, hc⟩
      · rfl
      · rw [List.takeWhile_cons, if_neg]
        rcases hc with hc | rfl
        · simp [hc]
        · simp
    rw [hr, List.append_nil]
  rw [htake, if_neg (by simpa using htok)]

theorem tryAddr_append (a s : List Char) : tryAddr a (a ++ s) = afterAddr s := by
  unfold tryAddr
  rw [if_pos (List.isPrefixOf_iff_prefix.mpr (List.prefix_append a s)), List.drop_left]

theorem tryAddr_miss {a l : List Char} (h : a.isPrefixOf l = false) :
    tryAddr a l = none := by
  unfold tryAddr
  rw [h]
  rfl

theorem isPrefixOf_cons_false {a b : Char} {as bs : List Char} (h : a ≠ b) :
    (a :: as).isPrefixOf (b :: bs) = false := by
  simp [List.isPrefixOf, h]

theorem isPrefixOf_cons_cons {a : Char} {as bs : List Char} :
    (a :: as).isPrefixOf (a :: bs) = as.isPrefixOf bs := by
  simp [List.isPrefixOf]

theorem tryAddr_inv {a l tok : List Char} (h : tryAddr a l = some tok) :
    a.isPrefixOf l = true ∧ afterAddr (l.drop a.length) = some tok := by
  unfold tryAddr at h
  by_cases hp : a.isPrefixOf l
  · exact ⟨hp, by rwa [if_pos hp] at h⟩
  · rw [if_neg hp] at h
    exact absurd h (by simp)

theorem afterAddr_inv {r tok : List Char} (h : afterAddr r = some tok) :
    ∀ c ∈ tok, isSpace c = false ∧ c ≠ '#' := by
  cases r with
  | nil => exact absurd h (by simp [afterAddr])
  | cons c cs =>
    rw [afterAddr_cons] at h
    by_cases hc : isSpace c
    · rw [if_pos hc] at h
      by_cases he : ((cs.dropWhile isSpace).takeWhile (fun d => !isSpace d && d ≠ '#')).isEmpty
      · rw [if_pos he] at h
        exact absurd h (by simp)
      · rw [if_neg he] at h
        intro c' hc'
        have := List.mem_takeWhile_imp ((Option.some_inj.mp h) ▸ hc')
        simp only [Bool.and_eq_true, Bool.not_eq_eq_eq_not, Bool.not_true, decide_eq_true_eq,
          bne_iff_ne, ne_eq] at this
        constructor
        · simpa using this.1
        · simpa using this.2
    · rw [if_neg hc] at h
      exact absurd h (by simp)

theorem head_of_isPrefixOf {a0 : Char} {as l : List Char}
    (h : (a0 :: as).isPrefixOf l = true) : l.head? = some a0 := by
  obtain ⟨t, rfl⟩ := List.isPrefixOf_iff_prefix.mp h
  rfl

theorem rxHostsMatch_of_decomp {addr ws tok rest : List Char}
    (haddr : addr = "0.0.0.0".data ∨ addr = "127.0.0.1".data ∨ addr = "::1".data ∨
      addr = ":".data ∨ addr = "::".data)
    (hws : ws ≠ []) (hwsall : ∀ c ∈ ws, isSpace c = true)
    (htok : tok ≠ []) (htokall : ∀ c ∈ tok, isSpace c = false ∧ c ≠ '#')
    (hrest : rest = [] ∨ ∃ c cs, rest = c :: cs ∧ (isSpace c = true ∨ c = '#')) :
    rxHostsMatch (addr ++ (ws ++ (tok ++ rest))) = some tok := by
  have hAA : afterAddr (ws ++ (tok ++ rest)) = some tok :=
    afterAddr_of_decomp hws hwsall htok htokall hrest
  obtain ⟨w, ws', rfl⟩ := List.exists_cons_of_ne_nil hws
  have hw : isSpace w = true := hwsall w (List.mem_cons_self w ws')
  have hne1 : ('1' : Char) ≠ w := by
    intro he
    rw [← he] at hw
    exact absurd hw (by decide)
  have hneC : (':' : Char) ≠ w := by
    intro he
    rw [← he] at hw
    exact absurd hw (by decide)
  have e0 : "0.0.0.0".data = ['0', '.', '0', '.', '0', '.', '0'] := rfl
  have e1 : "127.0.0.1".data = ['1', '2', '7', '.', '0', '.', '0', '.', '1'] := rfl
  have e2 : "::1".data = [':', ':', '1'] := rfl
  have e3 : ":".data = [':'] := rfl
  have e4 : "::".data = [':', ':'] := rfl
  unfold rxHostsMatch
  rcases haddr with rfl | rfl | rfl | rfl | rfl
  · rw [tryAddr_append, hAA]
    rfl
  · rw [tryAddr_miss (l := "127.0.0.1".data ++ _) (by
      rw [e0, e1, List.cons_append]
      exact isPrefixOf_cons_false (by decide))]
    rw [tryAddr_append, hAA]
    rfl
  · rw [tryAddr_miss (l := "::1".data ++ _) (by
      rw [e0, e2, List.cons_append]
      exact isPrefixOf_cons_false (by decide))]
    rw [tryAddr_miss (l := "::1".data ++ _) (by
      rw [e1, e2, List.cons_append]
      exact isPrefixOf_cons_false (by decide))]
    rw [tryAddr_append, hAA]
    rfl
  · rw [tryAddr_miss (l := ":".data ++ _) (by
      rw [e0, e3, List.cons_append]
      exact isPrefixOf_cons_false (by decide))]
    rw [tryAddr_miss (l := ":".data ++ _) (by
      rw [e1, e3, List.cons_append]
      exact isPrefixOf_cons_false (by decide))]
    rw [tryAddr_miss (l := ":".data ++ _) (by
      rw [e2, e3, List.cons_append, List.cons_append, isPrefixOf_cons_cons]
      exact isPrefixOf_cons_false hneC)]
    rw [tryAddr_append, hAA]
    rfl
  · rw [tryAddr_miss (l := "::".data ++ _) (by
      rw [e0, e4, List.cons_append]
      exact isPrefixOf_cons_false (by decide))]
    rw [tryAddr_miss (l := "::".data ++ _) (by
      rw [e1, e4, List.cons_append]
      exact isPrefixOf_cons_false (by decide))]
    rw [tryAddr_miss (l := "::".data ++ _) (by
      rw [e2, e4, List.cons_append, List.cons_append, isPrefixOf_cons_cons,
        isPrefixOf_cons_cons]
      exact isPrefixOf_cons_false hne1)]
    have hcolon : tryAddr ":".data ("::".data ++ (w :: ws' ++ (tok ++ rest))) = none := by
      unfold tryAddr
      rw [if_pos (by
        rw [e3, e4, List.cons_append, List.cons_append, isPrefixOf_cons_cons]
        simp [List.isPrefixOf])]
      rw [e3, e4]
      show afterAddr (List.drop 1 (':' :: ':' :: (w :: ws' ++ (tok ++ rest)))) = none
      rw [List.drop_succ_cons, List.drop_zero]
      exact afterAddr_nonspace (by decide)
    rw [hcolon]
    rw [tryAddr_append, hAA]
    rfl

theorem rxHostsMatch_inv {l tok : List Char} (h : rxHostsMatch l = some tok) :
    (l.head? = some '0' ∨ l.head? = some '1' ∨ l.head? = some ':') ∧
      ∀ c ∈ tok, isSpace c = false ∧ c ≠ '#' := by
  unfold rxHostsMatch at h
  have main : ∀ a : List Char,
      (a = "0.0.0.0".data ∨ a = "127.0.0.1".data ∨ a = "::1".data ∨
        a = ":".data ∨ a = "::".data) →
      tryAddr a l = some tok →
      (l.head? = some '0' ∨ l.head? = some '1' ∨ l.head? = some ':') ∧
        ∀ c ∈ tok, isSpace c = false ∧ c ≠ '#' := by
    intro a ha hsome
    obtain ⟨hp, hAA⟩ := tryAddr_inv hsome
    refine ⟨?_, afterAddr_inv hAA⟩
    rcases ha with rfl | rfl | rfl | rfl | rfl
    · exact Or.inl (head_of_isPrefixOf hp)
    · exact Or.inr (Or.inl (head_of_isPrefixOf hp))
    · exact Or.inr (Or.inr (head_of_isPrefixOf hp))
    · exact Or.inr (Or.inr (head_of_isPrefixOf hp))
    · exact Or.inr (Or.inr (head_of_isPrefixOf hp))
  rcases h0 : tryAddr "0.0.0.0".data l with _ | t0
  · rw [h0] at h
    rcases h1 : tryAddr "127.0.0.1".data l with _ | t1
    · rw [h1] at h
      rcases h2 : tryAddr "::1".data l with _ | t2
      · rw [h2] at h
        rcases h3 : tryAddr ":".data l with _ | t3
        · rw [h3] at h
          exact main "::".data (by tauto) (by simpa using h)
        · rw [h3] at h
          simp only [Option.orElse] at h
          exact main _ (by tauto) (h3.trans h)
      · rw [h2] at h
        simp only [Option.orElse] at h
        exact main _ (by tauto) (h2.trans h)
    · rw [h1] at h
      simp only [Option.orElse] at h
      exact main _ (by tauto) (h1.trans h)
  · rw [h0] at h
    simp only [Option.orElse] at h
    exact main _ (by tauto) (h0.trans h)

/-- Unfolding of `normalize` on a line whose stripped form matches the
hosts regex: the guards cannot fire (the line starts with `0`, `1` or `:`)
and the hosts branch is taken. -/
theorem normalizeL_hosts_eq {line tok : List Char}
    (h : rxHostsMatch (stripL line) = some tok) :
    normalizeL line =
      (if (rstripDots (toLowerL (stripL tok))).isEmpty then []
       else '|' :: '|' :: (rstripDots (toLowerL (stripL tok)) ++ ['^'])) := by
  have hhead := (rxHostsMatch_inv h).1
  obtain ⟨c, hc, hcv⟩ : ∃ c, (stripL line).head? = some c ∧ (c = '0' ∨ c = '1' ∨ c = ':') := by
    rcases hhead with h' | h' | h'
    · exact ⟨'0', h', by tauto⟩
    · exact ⟨'1', h', by tauto⟩
    · exact ⟨':', h', by tauto⟩
  have hg1 : (stripL line).isEmpty = false := by
    cases hl : stripL line with
    | nil => rw [hl] at hc; simp at hc
    | cons _ _ => rfl
  have hg2 : (decide ((stripL line).head? = some '!') ||
      decide ((stripL line).head? = some '[')) = false := by
    rw [hc]
    rcases hcv with rfl | rfl | rfl <;> decide
  have hg3 : (decide ((stripL line).head? = some '#')) = false := by
    rw [hc]
    rcases hcv with rfl | rfl | rfl <;> decide
  simp only [normalizeL, hg1, hg2, hg3, h, Bool.false_eq_true, if_false]
  rw [if_neg (by
    rw [hc]
    rcases hcv with rfl | rfl | rfl <;> decide)]

/-- C2: a raw line whose trimmed form starts with one of the addresses
`0.0.0.0`, `127.0.0.1`, `::1`, `:`, `::`, followed by whitespace and a
(maximal, non-empty) token of characters that are neither whitespace nor
`#`, normalizes to `||<domain>^` where `<domain>` is that token lower-cased
with trailing dots stripped — or to the discard result when the domain is
empty after stripping. -/
theorem C2_hosts_conversion (s : String) (addr ws tok rest : List Char)
    (haddr : addr = "0.0.0.0".data ∨ addr = "127.0.0.1".data ∨ addr = "::1".data ∨
      addr = ":".data ∨ addr = "::".data)
    (hdecomp : stripL s.data = addr ++ (ws ++ (tok ++ rest)))
    (hws : ws ≠ []) (hwsall : ∀ c ∈ ws, isSpace c = true)
    (htok : tok ≠ []) (htokall : ∀ c ∈ tok, isSpace c = false ∧ c ≠ '#')
    (hrest : rest = [] ∨ ∃ c cs, rest = c :: cs ∧ (isSpace c = true ∨ c = '#')) :
    normalize s =
      if (rstripDots (toLowerL tok)).isEmpty then ""
      else ⟨'|' :: '|' :: (rstripDots (toLowerL tok) ++ ['^'])⟩ := by
  have hmatch : rxHostsMatch (stripL s.data) = some tok := by
    rw [hdecomp]
    exact rxHostsMatch_of_decomp haddr hws hwsall htok htokall hrest
  have heq := normalizeL_hosts_eq hmatch
  have hstok : stripL tok = tok := stripL_of_all_not_space fun c hc => (htokall c hc).1
  rw [hstok] at heq
  unfold normalize
  by_cases hd : (rstripDots (toLowerL tok)).isEmpty
  · rw [if_pos hd]
    rw [heq, if_pos hd]
  · rw [if_neg hd]
    rw [heq, if_neg hd]

/-- C2 witness: the two concrete conversions from the spec. -/
theorem C2_hosts_conversion_witness :
    normalize "0.0.0.0 Example.COM." = "||example.com^" ∧
      normalize "127.0.0.1 ads.test" = "||ads.test^" := by
  constructor
  · have h := C2_hosts_conversion "0.0.0.0 Example.COM." "0.0.0.0".data [' ']
      "Example.COM.".data [] (Or.inl rfl) (by decide) (by decide)
      (by decide) (by decide) (by decide) (Or.inl rfl)
    rw [h]
    decide
  · have h := C2_hosts_conversion "127.0.0.1 ads.test" "127.0.0.1".data [' ']
      "ads.test".data [] (Or.inr (Or.inl rfl)) (by decide) (by decide)
      (by decide) (by decide) (by decide) (Or.inl rfl)
    rw [h]
    decide

/-- C10: the token captured by the hosts regex never contains `#` or
whitespace (it ends at the first such character), and the emitted domain
has all trailing dots stripped: its last character is never `.`; when the
domain is non-empty the rule `||<domain>^` is emitted, otherwise the line
is discarded. -/
theorem C10_hosts_token (s : String) (tok : List Char)
    (h : rxHostsMatch (stripL s.data) = some tok) :
    (∀ c ∈ tok, isSpace c = false ∧ c ≠ '#') ∧
      (∀ c, (rstripDots (toLowerL tok)).getLast? = some c → c ≠ '.') ∧
      (rstripDots (toLowerL tok) ≠ [] →
        normalize s = ⟨'|' :: '|' :: (rstripDots (toLowerL tok) ++ ['^'])⟩) ∧
      (rstripDots (toLowerL tok) = [] → normalize s = "") := by
  have hchars := (rxHostsMatch_inv h).2
  have hstok : stripL tok = tok := stripL_of_all_not_space fun c hc => (hchars c hc).1
  have heq := normalizeL_hosts_eq h
  rw [hstok] at heq
  refine ⟨hchars, fun c hc => rstripDots_getLast hc, ?_, ?_⟩
  · intro hd
    unfold normalize
    rw [heq, if_neg (by simpa using hd)]
  · intro hd
    unfold normalize
    rw [heq, if_pos (by simpa using hd)]

/-- C10 witness: the token stops at `#`, and all trailing dots are
stripped. -/
theorem C10_hosts_token_witness :
    normalize "0.0.0.0 ads.example#tail" = "||ads.example^" ∧
      normalize "0.0.0.0 foo.." = "||foo^" := by
  constructor
  · have h := (C10_hosts_token "0.0.0.0 ads.example#tail" "ads.example".data
      (by decide)).2.2.1 (by decide)
    rw [h]
    decide
  · have h := (C10_hosts_token "0.0.0.0 foo.." "foo..".data
      (by decide)).2.2.1 (by decide)
    rw [h]
    decide

/-! ## Deduplication and ordering lemmas for the main fold -/

theorem step_out_cases (st : List String × List String) (raw : String) :
    (step st raw).2 = st.2 ∨
      ((step st raw).2 = st.2 ++ [normalize raw] ∧
        canonical_key (normalize raw) ∉ st.1 ∧
        (step st raw).1 = canonical_key (normalize raw) :: st.1) := by
  unfold step
  by_cases h0 : normalize raw = ""
  · rw [if_pos h0]
    exact Or.inl rfl
  · rw [if_neg h0]
    by_cases h1 : canonical_key (normalize raw) ∈ st.1
    · rw [if_pos h1]
      exact Or.inl rfl
    · rw [if_neg h1]
      exact Or.inr ⟨rfl, h1, rfl⟩

theorem step_seen_mono (st : List String × List String) (raw : String) :
    ∀ k ∈ st.1, k ∈ (step st raw).1 := by
  intro k hk
  unfold step
  by_cases h0 : normalize raw = ""
  · rw [if_pos h0]; exact hk
  · rw [if_neg h0]
    by_cases h1 : canonical_key (normalize raw) ∈ st.1
    · rw [if_pos h1]; exact hk
    · rw [if_neg h1]; exact List.mem_cons_of_mem _ hk

theorem step_inv {base : List String} {st : List String × List String} (raw : String)
    (h : ∃ tail, st.2 = base ++ tail ∧ tail.Nodup ∧
      ∀ r ∈ tail, canonical_key r ∈ st.1) :
    ∃ tail, (step st raw).2 = base ++ tail ∧ tail.Nodup ∧
      ∀ r ∈ tail, canonical_key r ∈ (step st raw).1 := by
  obtain ⟨tail, hout, hnd, hkeys⟩ := h
  rcases step_out_cases st raw with hc | ⟨hc, hnotin, hseen⟩
  · exact ⟨tail, by rw [hc, hout], hnd, fun r hr => step_seen_mono st raw _ (hkeys r hr)⟩
  · refine ⟨tail ++ [normalize raw], by rw [hc, hout, List.append_assoc], ?_, ?_⟩
    · rw [List.nodup_append]
      refine ⟨hnd, List.nodup_singleton _, ?_⟩
      intro r hr
      simp only [List.mem_singleton]
      intro he
      exact hnotin (he ▸ hkeys r hr)
    · intro r hr
      rw [hseen]
      rcases List.mem_append.mp hr with hr | hr
      · exact List.mem_cons_of_mem _ (hkeys r hr)
      · rw [List.mem_singleton.mp hr]
        exact List.mem_cons_self _ _

theorem foldl_step_inv {α : Type} (g : α → String) (l : List α) :
    ∀ (base : List String) (st : List String × List String),
    (∃ tail, st.2 = base ++ tail ∧ tail.Nodup ∧ ∀ r ∈ tail, canonical_key r ∈ st.1) →
    ∃ tail, (l.foldl (fun st x => step st (g x)) st).2 = base ++ tail ∧ tail.Nodup ∧
      ∀ r ∈ tail, canonical_key r ∈ (l.foldl (fun st x => step st (g x)) st).1 := by
  induction l with
  | nil => intro base st h; exact h
  | cons x xs ih =>
    intro base st h
    rw [List.foldl_cons]
    exact ih base (step st (g x)) (step_inv (g x) h)

theorem processText_inv {base : List String} (text : String)
    (st : List String × List String)
    (h : ∃ tail, st.2 = base ++ tail ∧ tail.Nodup ∧
      ∀ r ∈ tail, canonical_key r ∈ st.1) :
    ∃ tail, (processText st text).2 = base ++ tail ∧ tail.Nodup ∧
      ∀ r ∈ tail, canonical_key r ∈ (processText st text).1 := by
  unfold processText
  by_cases ht : text = ""
  · rw [if_pos ht]; exact h
  · rw [if_neg ht]
    exact foldl_step_inv (fun raw => (⟨raw⟩ : String)) (pySplitlines text.data) base st h

theorem sources_foldl_inv (base : List String) (net : String → FetchResult)
    (sources : List String) :
    ∀ (st : List String × List String),
    (∃ tail, st.2 = base ++ tail ∧ tail.Nodup ∧ ∀ r ∈ tail, canonical_key r ∈ st.1) →
    ∃ tail,
      (sources.foldl (fun st url => processText st (fetch (net url))) st).2 =
        base ++ tail ∧ tail.Nodup ∧
      ∀ r ∈ tail, canonical_key r ∈
        (sources.foldl (fun st url => processText st (fetch (net url))) st).1 := by
  induction sources with
  | nil => intro st h; exact h
  | cons u us ih =>
    intro st h
    rw [List.foldl_cons]
    exact ih _ (processText_inv (fetch (net u)) st h)

/-- C1: equal normalized rule strings always produce equal fingerprints,
and the output lines after the five header lines contain no rule twice:
each rule that appears there appears exactly once, for every source list
and every network behaviour. -/
theorem C1_dedup_unique (ts : String) (sources : List String)
    (net : String → FetchResult) :
    ∃ tail, mainOutLines ts sources net = HEAD ts ++ tail ∧ tail.Nodup ∧
      (∀ r ∈ tail, tail.count r = 1) ∧
      ∀ a b : String, a = b → canonical_key a = canonical_key b := by
  obtain ⟨tail, hout, hnd, _⟩ :=
    sources_foldl_inv (HEAD ts) net sources ([], HEAD ts)
      ⟨[], by simp, List.nodup_nil, by simp⟩
  exact ⟨tail, hout, hnd, fun r hr => List.count_eq_one_of_mem hnd hr,
    fun a b h => h ▸ rfl⟩

/-- C1 witness: a concrete run decomposes after the header. -/
theorem C1_dedup_unique_witness :
    ∃ tail, mainOutLines "T" ["u"] (fun _ => FetchResult.err "x") = HEAD "T" ++ tail ∧
      tail.Nodup ∧ (∀ r ∈ tail, tail.count r = 1) ∧
      ∀ a b : String, a = b → canonical_key a = canonical_key b :=
  C1_dedup_unique "T" ["u"] (fun _ => FetchResult.err "x")

theorem foldl_step_block {α : Type} (g : α → String) (l : List α)
    (st : List String × List String) :
    ∃ b, (l.foldl (fun st x => step st (g x)) st).2 = st.2 ++ b ∧
      b.Sublist (l.map fun x => normalize (g x)) := by
  induction l generalizing st with
  | nil => exact ⟨[], by simp, List.nil_sublist _⟩
  | cons x xs ih =>
    rw [List.foldl_cons]
    obtain ⟨b, hb, hsub⟩ := ih (step st (g x))
    rcases step_out_cases st (g x) with hc | ⟨hc, -, -⟩
    · exact ⟨b, by rw [hb, hc], List.Sublist.cons _ hsub⟩
    · refine ⟨normalize (g x) :: b, ?_, List.Sublist.cons₂ _ hsub⟩
      rw [hb, hc, List.append_assoc]
      rfl

theorem processText_block (text : String) (st : List String × List String) :
    ∃ b, (processText st text).2 = st.2 ++ b ∧
      b.Sublist ((pySplitlines text.data).map fun raw => normalize ⟨raw⟩) := by
  unfold processText
  by_cases ht : text = ""
  · rw [if_pos ht]
    exact ⟨[], by simp, List.nil_sublist _⟩
  · rw [if_neg ht]
    exact foldl_step_block (fun raw => (⟨raw⟩ : String)) (pySplitlines text.data) st

theorem sources_foldl_blocks (net : String → FetchResult) (sources : List String) :
    ∀ st : List String × List String,
    ∃ blocks : List (List String),
      List.Forall₂
        (fun b u => b.Sublist
          ((pySplitlines (fetch (net u)).data).map fun raw => normalize ⟨raw⟩))
        blocks sources ∧
      (sources.foldl (fun st url => processText st (fetch (net url))) st).2 =
        st.2 ++ blocks.flatten := by
  induction sources with
  | nil => intro st; exact ⟨[], List.Forall₂.nil, by simp⟩
  | cons u us ih =>
    intro st
    rw [List.foldl_cons]
    obtain ⟨b, hb, hsub⟩ := processText_block (fetch (net u)) st
    obtain ⟨blocks, hf, hout⟩ := ih (processText st (fetch (net u)))
    refine ⟨b :: blocks, List.Forall₂.cons hsub hf, ?_⟩
    rw [hout, hb, List.flatten_cons, List.append_assoc]

/-- C5: the output after the header is the concatenation, in source-list
order, of one block per source, and each source's block lists that source's
surviving rules in the order of their originating lines (a sublist of the
per-line normalizations). -/
theorem C5_order_preservation (ts : String) (sources : List String)
    (net : String → FetchResult) :
    ∃ blocks : List (List String),
      List.Forall₂
        (fun b u => b.Sublist
          ((pySplitlines (fetch (net u)).data).map fun raw => normalize ⟨raw⟩))
        blocks sources ∧
      mainOutLines ts sources net = HEAD ts ++ blocks.flatten := by
  obtain ⟨blocks, hf, hout⟩ := sources_foldl_blocks net sources ([], HEAD ts)
  exact ⟨blocks, hf, hout⟩

/-- C5 witness: a concrete run decomposes into per-source blocks. -/
theorem C5_order_preservation_witness :
    ∃ blocks : List (List String),
      List.Forall₂
        (fun b u => b.Sublist
          ((pySplitlines (fetch ((fun _ => FetchResult.err "x") u)).data).map
            fun raw => normalize ⟨raw⟩))
        blocks ["u1", "u2"] ∧
      mainOutLines "T" ["u1", "u2"] (fun _ => FetchResult.err "x") =
        HEAD "T" ++ blocks.flatten :=
  C5_order_preservation "T" ["u1", "u2"] (fun _ => FetchResult.err "x")

/-- C6: a transport or protocol failure of the HTTP GET makes `fetch`
return empty text, and such a source contributes nothing to the output —
the run continues exactly as if that source were absent. -/
theorem C6_fetch_failure (ts : String) (pre post : List String) (u : String)
    (net : String → FetchResult) (e : String) (hu : net u = FetchResult.err e) :
    fetch (net u) = "" ∧
      mainOutLines ts (pre ++ u :: post) net = mainOutLines ts (pre ++ post) net := by
  have hempty : ∀ st : List String × List String, processText st "" = st := by
    intro st
    unfold processText
    rw [if_pos rfl]
  constructor
  · rw [hu]
    rfl
  · unfold mainOutLines
    dsimp only
    rw [List.foldl_append, List.foldl_append, List.foldl_cons, hu,
      show fetch (FetchResult.err e) = "" from rfl, hempty]

/-- C6 witness: a failing source between two others contributes nothing. -/
theorem C6_fetch_failure_witness :
    fetch ((fun _ => FetchResult.err "timeout") "u") = "" ∧
      mainOutLines "T" (["a"] ++ "u" :: ["b"]) (fun _ => FetchResult.err "timeout") =
        mainOutLines "T" (["a"] ++ ["b"]) (fun _ => FetchResult.err "timeout") :=
  C6_fetch_failure "T" ["a"] ["b"] "u" (fun _ => FetchResult.err "timeout") "timeout" rfl

theorem stripL_idem (l : List Char) : stripL (stripL l) = stripL l := by
  refine stripL_eq_self ?_ ?_
  · intro c hc
    cases hl : stripL l with
    | nil => rw [hl] at hc; simp at hc
    | cons a as =>
      rw [hl] at hc
      simp only [List.head?_cons, Option.some_inj] at hc
      rw [← hc]
      exact stripL_head_not_space hl
  · intro c hc
    exact stripL_getLast_not_space hc

/-- C7 counterexample: duplicate URLs are not removed at load time. -/
theorem C7_counterexample :
    loadSources "http://a\nhttp://a" = ["http://a", "http://a"] ∧
      ¬ (loadSources "http://a\nhttp://a").Nodup := by
  constructor
  · decide
  · decide

/-- C7 (amended): loading yields the file's lines in file order with
surrounding whitespace stripped and with blank lines and `#`-comment lines
removed; duplicate URLs are retained. -/
theorem C7_load_sources (txt : String) :
    (∀ s ∈ loadSources txt, s ≠ "" ∧ s.data.head? ≠ some '#' ∧ s.data = stripL s.data) ∧
      (loadSources txt).Sublist ((fileLines txt.data).map fun l => (⟨stripL l⟩ : String)) ∧
      ∀ l ∈ fileLines txt.data, stripL l ≠ [] → (stripL l).head? ≠ some '#' →
        (⟨stripL l⟩ : String) ∈ loadSources txt := by
  refine ⟨?_, ?_, ?_⟩
  · intro s hs
    unfold loadSources at hs
    obtain ⟨l, hl, rfl⟩ := List.mem_map.mp hs
    obtain ⟨hmem, hpred⟩ := List.mem_filter.mp hl
    obtain ⟨l0, hl0, rfl⟩ := List.mem_map.mp hmem
    simp only [Bool.and_eq_true, Bool.not_eq_true', decide_eq_true_eq] at hpred
    refine ⟨?_, hpred.2, (stripL_idem l0).symm⟩
    intro he
    have hd : stripL l0 = [] := congrArg String.data he
    rw [hd] at hpred
    simp at hpred
  · unfold loadSources
    have h1 : (((fileLines txt.data).map stripL).filter
        fun l => !l.isEmpty && l.head? ≠ some '#').Sublist
        ((fileLines txt.data).map stripL) := List.filter_sublist _
    have h2 := h1.map fun l => (⟨l⟩ : String)
    rw [List.map_map] at h2
    exact h2
  · intro l hl hne hhd
    unfold loadSources
    refine List.mem_map.mpr ⟨stripL l, ?_, rfl⟩
    refine List.mem_filter.mpr ⟨List.mem_map.mpr ⟨l, hl, rfl⟩, ?_⟩
    simp only [Bool.and_eq_true, Bool.not_eq_eq_eq_not, Bool.not_true]
    constructor
    · simpa using hne
    · simpa using hhd

/-- C7 witness: loading keeps order, strips, and drops blanks/comments. -/
theorem C7_load_sources_witness :
    (∀ s ∈ loadSources " http://a \n\n# c\nhttp://b",
      s ≠ "" ∧ s.data.head? ≠ some '#' ∧ s.data = stripL s.data) ∧
      (loadSources " http://a \n\n# c\nhttp://b").Sublist
        ((fileLines " http://a \n\n# c\nhttp://b".data).map fun l => (⟨stripL l⟩ : String)) ∧
      ∀ l ∈ fileLines " http://a \n\n# c\nhttp://b".data,
        stripL l ≠ [] → (stripL l).head? ≠ some '#' →
        (⟨stripL l⟩ : String) ∈ loadSources " http://a \n\n# c\nhttp://b" :=
  C7_load_sources " http://a \n\n# c\nhttp://b"

/-- C9: a missing `sources.txt` is reported to diagnostics and the run
returns with nothing written to the output file, while a present source
list leads to the combined document being written. -/
theorem C9_missing_source_list (ts : String) (net : String → FetchResult) :
    (mainRun ts none net).written = none ∧
      (mainRun ts none net).diags = ["sources.txt not found"] ∧
      ∀ txt, (mainRun ts (some txt) net).written =
        some (mainOutLines ts (loadSources txt) net) :=
  ⟨rfl, rfl, fun _ => rfl⟩

/-! ## Native-path lemmas (C3) -/

theorem intercalate_comma_nil : List.intercalate [','] ([] : List (List Char)) = [] := rfl

theorem intercalate_comma_single (f : List Char) : List.intercalate [','] [f] = f := by
  simp [List.intercalate]

theorem intercalate_comma_cons_cons (f g : List Char) (rest : List (List Char)) :
    List.intercalate [','] (f :: g :: rest) =
      f ++ ',' :: List.intercalate [','] (g :: rest) := by
  simp [List.intercalate, List.intersperse]

theorem intercalate_getLast_not_space :
    ∀ (fs : List (List Char)),
    (∀ f ∈ fs, f ≠ [] ∧ ∀ c, f.getLast? = some c → isSpace c = false) →
    ∀ c, (List.intercalate [','] fs).getLast? = some c → isSpace c = false := by
  intro fs
  induction fs with
  | nil =>
    intro _ c hc
    rw [intercalate_comma_nil] at hc
    simp at hc
  | cons f rest ih =>
    intro hf c hc
    cases rest with
    | nil =>
      rw [intercalate_comma_single] at hc
      exact (hf f (List.mem_cons_self f [])).2 c hc
    | cons g rest' =>
      rw [intercalate_comma_cons_cons] at hc
      have hne : List.intercalate [','] (g :: rest') ≠ [] := by
        intro he
        cases rest' with
        | nil => rw [intercalate_comma_single] at he; exact (hf g (by simp)).1 he
        | cons g' r'' =>
          rw [intercalate_comma_cons_cons] at he
          exact absurd he (by simp [(hf g (by simp)).1])
      rw [List.getLast?_append_of_ne_nil _ (by simp [hne])] at hc
      have hne2 : (',' :: List.intercalate [','] (g :: rest')) ≠ [] := by simp
      obtain ⟨x, xs, hx⟩ := List.exists_cons_of_ne_nil hne
      rw [hx, List.getLast?_cons_cons, ← hx] at hc
      exact ih (fun f' hf' => hf f' (List.mem_cons_of_mem _ hf')) c hc

theorem optSort_eq (z : List Char) :
    optSort z =
      stripL (z.takeWhile fun c => c ≠ '$') ++ '$' ::
        List.intercalate [','] (sortStrs ((((stripL ((z.dropWhile
          fun c => c ≠ '$').drop 1)).splitOn ',').map stripL).filter
          fun o => !o.isEmpty)) := rfl

theorem nativeNorm_eq (l : List Char) :
    nativeNorm l =
      stripL (if countChar '$' (toLowerL (collapseWs l)) = 1
        then optSort (toLowerL (collapseWs l))
        else toLowerL (collapseWs l)) := rfl

/-- The overall strip in `nativeNorm` is a no-op after option sorting:
the rebuilt line starts and ends with a non-space character (or `$`). -/
theorem optSort_strip_eq (z : List Char) : stripL (optSort z) = optSort z := by
  apply stripL_eq_self
  · intro c hc
    rw [optSort_eq] at hc
    cases hmn : stripL (z.takeWhile fun c => c ≠ '$') with
    | nil =>
      rw [hmn] at hc
      simp only [List.nil_append, List.head?_cons, Option.some_inj] at hc
      rw [← hc]
      decide
    | cons m ms =>
      rw [hmn] at hc
      simp only [List.cons_append, List.head?_cons, Option.some_inj] at hc
      rw [← hc]
      exact stripL_head_not_space hmn
  · intro c hc
    rw [optSort_eq] at hc
    rw [List.getLast?_append_of_ne_nil _ (by simp)] at hc
    set fs := sortStrs ((((stripL ((z.dropWhile fun c => c ≠ '$').drop 1)).splitOn ',').map
      stripL).filter fun o => !o.isEmpty) with hfs
    cases hJ : List.intercalate [','] fs with
    | nil =>
      rw [hJ] at hc
      simp only [List.getLast?_singleton, Option.some_inj] at hc
      rw [← hc]
      decide
    | cons j js =>
      rw [hJ] at hc
      rw [List.getLast?_cons_cons] at hc
      rw [← hJ] at hc
      refine intercalate_getLast_not_space fs ?_ c hc
      intro f hf
      have hf' : f ∈ (((stripL ((z.dropWhile fun c => c ≠ '$').drop 1)).splitOn ',').map
          stripL).filter fun o => !o.isEmpty := (sortStrs_perm _).mem_iff.mp (hfs ▸ hf)
      obtain ⟨hmem, hpred⟩ := List.mem_filter.mp hf'
      obtain ⟨o, _, rfl⟩ := List.mem_map.mp hmem
      refine ⟨by simpa using hpred, fun c' hc' => stripL_getLast_not_space hc'⟩

/-- `normalize` reaches the native path when the stripped line is
non-empty, is not a comment, fails the hosts regex and fails the two-token
heuristic. -/
theorem normalizeL_native_eq (line : List Char)
    (hne : (stripL line).isEmpty = false)
    (hcmt : ∀ c, (stripL line).head? = some c → c ≠ '!' ∧ c ≠ '[' ∧ c ≠ '#')
    (hrx : rxHostsMatch (stripL line) = none)
    (hheur : ∀ p0 p1 ps, splitWs (stripL line) = p0 :: p1 :: ps →
      ¬ (countChar '.' p0 ≥ 1 ∧ hostPat p1 = true)) :
    normalizeL line = nativeNorm (stripL line) := by
  obtain ⟨c, cs, hl⟩ : ∃ c cs, stripL line = c :: cs := by
    cases h : stripL line with
    | nil => rw [h] at hne; simp at hne
    | cons a as => exact ⟨a, as, rfl⟩
  have hc := hcmt c (by rw [hl]; rfl)
  have hg2 : (decide ((stripL line).head? = some '!') ||
      decide ((stripL line).head? = some '[')) = false := by
    rw [hl]
    simp [hc.1, hc.2.1]
  have hg3 : ¬ ((stripL line).head? = some '#') := by
    rw [hl]
    simp [hc.2.2]
  simp only [normalizeL, hne, Bool.false_eq_true, if_false, hg2, hrx]
  rw [if_neg hg3]
  cases hsp : splitWs (stripL line) with
  | nil => rfl
  | cons p0 ps0 =>
    cases ps0 with
    | nil => rfl
    | cons p1 ps =>
      have hcond : (decide (countChar '.' p0 ≥ 1) && hostPat p1) = false := by
        by_contra hb
        have hb' : (decide (countChar '.' p0 ≥ 1) && hostPat p1) = true :=
          Bool.ne_false_iff.mp hb
        rw [Bool.and_eq_true] at hb'
        exact hheur p0 p1 ps hsp ⟨of_decide_eq_true hb'.1, hb'.2⟩
      simp only [hcond, Bool.false_eq_true, if_false]

/-- C3: on the native-rule path, a line with exactly one `$` is rebuilt as
the trimmed body, `$`, and the non-empty trimmed option fragments sorted
lexicographically (a sorted permutation of the fragments) and rejoined with
`,`; with zero or several `$` the collapsed lower-cased line is returned
unmodified; consequently the two spec examples both normalize to
`"||foo.com^$script,third-party"`. -/
theorem C3_native_option_sort (s : String)
    (hne : (stripL s.data).isEmpty = false)
    (hcmt : ∀ c, (stripL s.data).head? = some c → c ≠ '!' ∧ c ≠ '[' ∧ c ≠ '#')
    (hrx : rxHostsMatch (stripL s.data) = none)
    (hheur : ∀ p0 p1 ps, splitWs (stripL s.data) = p0 :: p1 :: ps →
      ¬ (countChar '.' p0 ≥ 1 ∧ hostPat p1 = true)) :
    (countChar '$' (toLowerL (collapseWs (stripL s.data))) = 1 →
      ∃ fs : List (List Char),
        fs.Perm ((((stripL (((toLowerL (collapseWs (stripL s.data))).dropWhile
            (fun c => c ≠ '$')).drop 1)).splitOn ',').map stripL).filter
            fun o => !o.isEmpty) ∧
        fs.Pairwise (fun a b => lexLt b a = false) ∧
        normalize s = ⟨stripL ((toLowerL (collapseWs (stripL s.data))).takeWhile
          fun c => c ≠ '$') ++ '$' :: List.intercalate [','] fs⟩) ∧
    (countChar '$' (toLowerL (collapseWs (stripL s.data))) ≠ 1 →
      normalize s = ⟨toLowerL (collapseWs (stripL s.data))⟩) ∧
    normalize "||foo.com^$script,third-party" = "||foo.com^$script,third-party" ∧
    normalize "||foo.com^$third-party,script" = "||foo.com^$script,third-party" := by
  have heq : normalizeL s.data = nativeNorm (stripL s.data) :=
    normalizeL_native_eq _ hne hcmt hrx hheur
  have hzs : stripL (toLowerL (collapseWs (stripL s.data))) =
      toLowerL (collapseWs (stripL s.data)) := by
    obtain ⟨c, cs, hl⟩ : ∃ c cs, stripL s.data = c :: cs := by
      cases h : stripL s.data with
      | nil => rw [h] at hne; simp at hne
      | cons a as => exact ⟨a, as, rfl⟩
    have hcns : isSpace c = false := stripL_head_not_space hl
    apply stripL_eq_self
    · intro c' hc'
      rw [hl] at hc'
      unfold collapseWs at hc'
      rw [collapseAux_cons, if_neg (by simp [hcns])] at hc'
      simp only [toLowerL, List.map_cons, List.head?_cons, Option.some_inj] at hc'
      rw [← hc', isSpace_toLowerChar]
      exact hcns
    · intro c' hc'
      obtain ⟨d, hd⟩ : ∃ d, (stripL s.data).getLast? = some d := by
        rw [hl]
        exact ⟨(c :: cs).getLast (by simp), List.getLast?_eq_getLast _ _⟩
      have hdns : isSpace d = false := stripL_getLast_not_space hd
      have hcol : (collapseWs (stripL s.data)).getLast? = some d :=
        collapseAux_getLast false hd hdns
      rw [toLowerL, List.getLast?_map, hcol] at hc'
      simp only [Option.map_some', Option.some_inj] at hc'
      rw [← hc', isSpace_toLowerChar]
      exact hdns
  refine ⟨?_, ?_, by decide, by decide⟩
  · intro hcount
    refine ⟨sortStrs _, sortStrs_perm _, sortStrs_sorted _, ?_⟩
    unfold normalize
    rw [heq, nativeNorm_eq, if_pos hcount, optSort_strip_eq, optSort_eq]
  · intro hcount
    unfold normalize
    rw [heq, nativeNorm_eq, if_neg hcount, hzs]

/-- C3 witness: the spec's option-sorting examples, via the theorem at a
concrete input. -/
theorem C3_native_option_sort_witness :
    normalize "||foo.com^$script,third-party" = "||foo.com^$script,third-party" ∧
      normalize "||foo.com^$third-party,script" = "||foo.com^$script,third-party" :=
  (C3_native_option_sort "||foo.com^$third-party,script" (by decide) (by decide) (by decide)
    (by
      intro p0 p1 ps h
      have e : splitWs (stripL "||foo.com^$third-party,script".data) =
          ["||foo.com^$third-party,script".data] := by decide
      rw [e] at h
      simp at h)).2.2

/-! ## UTF-8 round-trip lemmas (C8) -/

theorem decode_step1 {repl : List Char} {b : Nat} {bs : List Nat} (h : b < 0x80) :
    decodeUtf8With repl (b :: bs) = Char.ofNat b :: decodeUtf8With repl bs := by
  rw [decodeUtf8With.eq_def]
  dsimp only
  rw [if_pos h]

theorem decode_step2 {repl : List Char} {b b1 : Nat} {bs : List Nat}
    (h1 : 0xC2 ≤ b) (h2 : b ≤ 0xDF) (h3 : 0x80 ≤ b1) (h4 : b1 ≤ 0xBF) :
    decodeUtf8With repl (b :: b1 :: bs) =
      Char.ofNat ((b - 0xC0) * 64 + (b1 - 0x80)) :: decodeUtf8With repl bs := by
  rw [decodeUtf8With.eq_def]
  dsimp only
  rw [if_neg (by omega), if_pos (by simp only [Bool.and_eq_true, decide_eq_true_eq]; omega)]
  rw [if_pos (by simp only [isCont, Bool.and_eq_true, decide_eq_true_eq]; omega)]

theorem decode_step3 {repl : List Char} {b b1 b2 : Nat} {bs : List Nat}
    (h1 : 0xE0 ≤ b) (h2 : b ≤ 0xEF) (h3 : cont1Lo b ≤ b1) (h4 : b1 ≤ cont1Hi b)
    (h5 : 0x80 ≤ b2) (h6 : b2 ≤ 0xBF) :
    decodeUtf8With repl (b :: b1 :: b2 :: bs) =
      Char.ofNat (((b - 0xE0) * 64 + (b1 - 0x80)) * 64 + (b2 - 0x80)) ::
        decodeUtf8With repl bs := by
  rw [decodeUtf8With.eq_def]
  dsimp only
  rw [if_neg (by omega), if_neg (by simp only [Bool.and_eq_true, decide_eq_true_eq]; omega),
    if_pos (by simp only [Bool.and_eq_true, decide_eq_true_eq]; omega)]
  rw [if_pos (by simp only [Bool.and_eq_true, decide_eq_true_eq]; omega)]
  rw [if_pos (by simp only [isCont, Bool.and_eq_true, decide_eq_true_eq]; omega)]

theorem decode_step4 {repl : List Char} {b b1 b2 b3 : Nat} {bs : List Nat}
    (h1 : 0xF0 ≤ b) (h2 : b ≤ 0xF4) (h3 : cont1Lo b ≤ b1) (h4 : b1 ≤ cont1Hi b)
    (h5 : 0x80 ≤ b2) (h6 : b2 ≤ 0xBF) (h7 : 0x80 ≤ b3) (h8 : b3 ≤ 0xBF) :
    decodeUtf8With repl (b :: b1 :: b2 :: b3 :: bs) =
      Char.ofNat ((((b - 0xF0) * 64 + (b1 - 0x80)) * 64 + (b2 - 0x80)) * 64 + (b3 - 0x80)) ::
        decodeUtf8With repl bs := by
  rw [decodeUtf8With.eq_def]
  dsimp only
  rw [if_neg (by omega), if_neg (by simp only [Bool.and_eq_true, decide_eq_true_eq]; omega),
    if_neg (by simp only [Bool.and_eq_true, decide_eq_true_eq]; omega),
    if_pos (by simp only [Bool.and_eq_true, decide_eq_true_eq]; omega)]
  rw [if_pos (by simp only [Bool.and_eq_true, decide_eq_true_eq]; omega)]
  rw [if_pos (by simp only [isCont, Bool.and_eq_true, decide_eq_true_eq]; omega)]
  rw [if_pos (by simp only [isCont, Bool.and_eq_true, decide_eq_true_eq]; omega)]

theorem decode_encodeChar (c : Char) (rest : List Nat) :
    decodeUtf8With [] (encodeChar c ++ rest) = c :: decodeUtf8With [] rest := by
  have hval := char_toNat_valid c
  by_cases r1 : c.toNat < 0x80
  · have e : encodeChar c = [c.toNat] := by
      unfold encodeChar
      rw [if_pos r1]
    rw [e, List.cons_append, List.nil_append, decode_step1 r1, Char.ofNat_toNat]
  · by_cases r2 : c.toNat < 0x800
    · have e : encodeChar c = [0xC0 + c.toNat / 64, 0x80 + c.toNat % 64] := by
        unfold encodeChar
        rw [if_neg r1, if_pos r2]
      rw [e]
      show decodeUtf8With [] ((0xC0 + c.toNat / 64) :: (0x80 + c.toNat % 64) :: rest) = _
      rw [decode_step2 (by omega) (by omega) (by omega) (by omega)]
      have harith : (0xC0 + c.toNat / 64 - 0xC0) * 64 + (0x80 + c.toNat % 64 - 0x80) =
          c.toNat := by omega
      rw [harith, Char.ofNat_toNat]
    · by_cases r3 : c.toNat < 0x10000
      · have e : encodeChar c = [0xE0 + c.toNat / 4096, 0x80 + c.toNat / 64 % 64,
            0x80 + c.toNat % 64] := by
          unfold encodeChar
          rw [if_neg r1, if_neg r2, if_pos r3]
        rw [e]
        show decodeUtf8With [] ((0xE0 + c.toNat / 4096) :: (0x80 + c.toNat / 64 % 64) ::
          (0x80 + c.toNat % 64) :: rest) = _
        have hb : 0xE0 ≤ 0xE0 + c.toNat / 4096 ∧ 0xE0 + c.toNat / 4096 ≤ 0xEF := by omega
        have hc1 : cont1Lo (0xE0 + c.toNat / 4096) ≤ 0x80 + c.toNat / 64 % 64 ∧
            0x80 + c.toNat / 64 % 64 ≤ cont1Hi (0xE0 + c.toNat / 4096) := by
          unfold cont1Lo cont1Hi
          rw [if_neg (show ¬ (0xE0 + c.toNat / 4096 = 0xF0) by omega),
            if_neg (show ¬ (0xE0 + c.toNat / 4096 = 0xF4) by omega)]
          by_cases hE0 : c.toNat < 0x1000
          · rw [if_pos (show 0xE0 + c.toNat / 4096 = 0xE0 by omega),
              if_neg (show ¬ (0xE0 + c.toNat / 4096 = 0xED) by omega)]
            omega
          · rw [if_neg (show ¬ (0xE0 + c.toNat / 4096 = 0xE0) by omega)]
            by_cases hED : 0xD000 ≤ c.toNat ∧ c.toNat < 0xE000
            · rw [if_pos (show 0xE0 + c.toNat / 4096 = 0xED by omega)]
              rcases hval with hv | ⟨hv1, hv2⟩
              · omega
              · omega
            · rw [if_neg (show ¬ (0xE0 + c.toNat / 4096 = 0xED) by omega)]
              omega
        rw [decode_step3 hb.1 hb.2 hc1.1 hc1.2 (by omega) (by omega)]
        have harith : ((0xE0 + c.toNat / 4096 - 0xE0) * 64 + (0x80 + c.toNat / 64 % 64 - 0x80)) *
            64 + (0x80 + c.toNat % 64 - 0x80) = c.toNat := by omega
        rw [harith, Char.ofNat_toNat]
      · have r4 : c.toNat < 0x110000 := char_toNat_lt c
        have e : encodeChar c = [0xF0 + c.toNat / 262144, 0x80 + c.toNat / 4096 % 64,
            0x80 + c.toNat / 64 % 64, 0x80 + c.toNat % 64] := by
          unfold encodeChar
          rw [if_neg r1, if_neg r2, if_neg r3]
        rw [e]
        show decodeUtf8With [] ((0xF0 + c.toNat / 262144) :: (0x80 + c.toNat / 4096 % 64) ::
          (0x80 + c.toNat / 64 % 64) :: (0x80 + c.toNat % 64) :: rest) = _
        have hb : 0xF0 ≤ 0xF0 + c.toNat / 262144 ∧ 0xF0 + c.toNat / 262144 ≤ 0xF4 := by omega
        have hc1 : cont1Lo (0xF0 + c.toNat / 262144) ≤ 0x80 + c.toNat / 4096 % 64 ∧
            0x80 + c.toNat / 4096 % 64 ≤ cont1Hi (0xF0 + c.toNat / 262144) := by
          unfold cont1Lo cont1Hi
          rw [if_neg (show ¬ (0xF0 + c.toNat / 262144 = 0xE0) by omega),
            if_neg (show ¬ (0xF0 + c.toNat / 262144 = 0xED) by omega)]
          by_cases hF0 : c.toNat < 0x40000
          · rw [if_pos (show 0xF0 + c.toNat / 262144 = 0xF0 by omega),
              if_neg (show ¬ (0xF0 + c.toNat / 262144 = 0xF4) by omega)]
            omega
          · rw [if_neg (show ¬ (0xF0 + c.toNat / 262144 = 0xF0) by omega)]
            by_cases hF4 : 0x100000 ≤ c.toNat
            · rw [if_pos (show 0xF0 + c.toNat / 262144 = 0xF4 by omega)]
              omega
            · rw [if_neg (show ¬ (0xF0 + c.toNat / 262144 = 0xF4) by omega)]
              omega
        rw [decode_step4 hb.1 hb.2 hc1.1 hc1.2 (by omega) (by omega) (by omega) (by omega)]
        have harith : (((0xF0 + c.toNat / 262144 - 0xF0) * 64 +
            (0x80 + c.toNat / 4096 % 64 - 0x80)) * 64 + (0x80 + c.toNat / 64 % 64 - 0x80)) *
            64 + (0x80 + c.toNat % 64 - 0x80) = c.toNat := by omega
        rw [harith, Char.ofNat_toNat]

theorem decode_utf8Encode (l : List Char) : decodeUtf8Ignore (utf8Encode l) = l := by
  induction l with
  | nil => rfl
  | cons c cs ih =>
    unfold utf8Encode at ih ⊢
    rw [List.flatMap_cons]
    unfold decodeUtf8Ignore at ih ⊢
    rw [decode_encodeChar c, ih]

/-- C8 counterexample: on a body with an invalid byte, `fetch` drops the
byte (`errors='ignore'`) instead of replacing it with U+FFFD as the claim
("replaced") would require. -/
theorem C8_counterexample :
    fetch (FetchResult.ok [0x41, 0xFF, 0x42]) ≠ ⟨decodeUtf8Replace [0x41, 0xFF, 0x42]⟩ ∧
      fetch (FetchResult.ok [0x41, 0xFF, 0x42]) = "AB" ∧
      (⟨decodeUtf8Replace [0x41, 0xFF, 0x42]⟩ : String) = "A�B" := by
  refine ⟨by decide, by decide, by decide⟩

/-- C8 (amended): on success `fetch` decodes the body as UTF-8 with
ill-formed subparts dropped rather than raising (`errors='ignore'`), so a
well-formed UTF-8 body decodes to exactly its original text. -/
theorem C8_decode_ignore (s : String) :
    fetch (FetchResult.ok (utf8Encode s.data)) = s ∧
      ∀ body : List Nat, fetch (FetchResult.ok body) = ⟨decodeUtf8Ignore body⟩ := by
  constructor
  · show (⟨decodeUtf8Ignore (utf8Encode s.data)⟩ : String) = s
    rw [decode_utf8Encode]
  · intro body
    rfl

/-- C8 witness: a concrete multi-byte body round-trips. -/
theorem C8_decode_ignore_witness :
    fetch (FetchResult.ok (utf8Encode "héllo ☃ 🎉".data)) = "héllo ☃ 🎉" :=
  (C8_decode_ignore "héllo ☃ 🎉").1

/-! ## Idempotence infrastructure (C4): small structural lemmas -/

theorem takeWhile_all {p : Char → Bool} {m : List Char} (h : ∀ c ∈ m, p c = true) :
    m.takeWhile p = m := by
  induction m with
  | nil => rfl
  | cons c cs ih =>
    rw [List.takeWhile_cons, if_pos (h c (List.mem_cons_self c cs)),
      ih fun c' hc' => h c' (List.mem_cons_of_mem c hc')]

theorem dropWhile_all {p : Char → Bool} {m : List Char} (h : ∀ c ∈ m, p c = true) :
    m.dropWhile p = [] := by
  induction m with
  | nil => rfl
  | cons c cs ih =>
    rw [List.dropWhile_cons, if_pos (h c (List.mem_cons_self c cs))]
    exact ih fun c' hc' => h c' (List.mem_cons_of_mem c hc')

theorem collapse_no_space {m : List Char} (h : ∀ c ∈ m, isSpace c = false) :
    collapseWs m = m := by
  unfold collapseWs
  induction m with
  | nil => rfl
  | cons c cs ih =>
    rw [collapseAux_cons, if_neg (by simp [h c (List.mem_cons_self c cs)]),
      ih fun c' hc' => h c' (List.mem_cons_of_mem c hc')]

theorem splitWs_single {m : List Char} (hm : m ≠ [])
    (hns : ∀ c ∈ m, isSpace c = false) : splitWs m = [m] := by
  obtain ⟨c, cs, rfl⟩ := List.exists_cons_of_ne_nil hm
  rw [splitWs_cons, if_neg (by simp [hns c (List.mem_cons_self c cs)])]
  rw [takeWhile_all (fun c' hc' => by simp [hns c' (List.mem_cons_of_mem c hc')]),
    dropWhile_all (fun c' hc' => by simp [hns c' (List.mem_cons_of_mem c hc')])]
  rfl

theorem rxHostsMatch_none_of_head {c : Char} {cs : List Char}
    (h0 : c ≠ '0') (h1 : c ≠ '1') (hc : c ≠ ':') :
    rxHostsMatch (c :: cs) = none := by
  unfold rxHostsMatch
  rw [tryAddr_miss (isPrefixOf_cons_false (Ne.symm h0)),
    tryAddr_miss (isPrefixOf_cons_false (Ne.symm h1)),
    tryAddr_miss (isPrefixOf_cons_false (Ne.symm hc)),
    tryAddr_miss (isPrefixOf_cons_false (Ne.symm hc)),
    tryAddr_miss (isPrefixOf_cons_false (Ne.symm hc))]
  rfl

theorem toLowerL_eq_self {m : List Char} (h : ∀ c ∈ m, toLowerChar c = c) :
    toLowerL m = m := by
  unfold toLowerL
  rw [List.map_congr_left h]
  exact List.map_id _

theorem toLowerL_idem (m : List Char) : toLowerL (toLowerL m) = toLowerL m := by
  apply toLowerL_eq_self
  intro c hc
  obtain ⟨c', _, rfl⟩ := List.mem_map.mp hc
  exact toLowerChar_idem c'

theorem countChar_eq_zero {ch : Char} {m : List Char} (h : ch ∉ m) :
    countChar ch m = 0 := by
  unfold countChar
  rw [List.countP_eq_zero]
  intro c hc
  simp only [decide_eq_true_eq]
  rintro rfl
  exact h hc

theorem cl_strip_eq {w : List Char} (hwstrip : stripL w = w) :
    stripL (toLowerL (collapseWs w)) = toLowerL (collapseWs w) := by
  cases w with
  | nil => rfl
  | cons c cs =>
    have hc : isSpace c = false := stripL_head_not_space hwstrip
    apply stripL_eq_self
    · intro c' hc'
      unfold collapseWs at hc'
      rw [collapseAux_cons, if_neg (by simp [hc])] at hc'
      simp only [toLowerL, List.map_cons, List.head?_cons, Option.some_inj] at hc'
      rw [← hc', isSpace_toLowerChar]
      exact hc
    · intro c' hc'
      obtain ⟨d, hd⟩ : ∃ d, (c :: cs).getLast? = some d :=
        ⟨(c :: cs).getLast (by simp), List.getLast?_eq_getLast _ _⟩
      have hdns : isSpace d = false := stripL_getLast_not_space (hwstrip.symm ▸ hd)
      have hcol : (collapseWs (c :: cs)).getLast? = some d :=
        collapseAux_getLast false hd hdns
      rw [toLowerL, List.getLast?_map, hcol] at hc'
      simp only [Option.map_some', Option.some_inj] at hc'
      rw [← hc', isSpace_toLowerChar]
      exact hdns

theorem normalizeL_empty (line : List Char) (h : stripL line = []) :
    normalizeL line = [] := by
  simp only [normalizeL, h, List.isEmpty_nil, if_true]

theorem normalizeL_comment (line : List Char) {c : Char}
    (hc : (stripL line).head? = some c) (h : c = '!' ∨ c = '[' ∨ c = '#') :
    normalizeL line = [] := by
  have hne : (stripL line).isEmpty = false := by
    cases hl : stripL line with
    | nil => rw [hl] at hc; simp at hc
    | cons _ _ => rfl
  rcases h with rfl | rfl | rfl
  · simp only [normalizeL, hne, Bool.false_eq_true, if_false, hc]
    simp
  · simp only [normalizeL, hne, Bool.false_eq_true, if_false, hc]
    simp
  · simp only [normalizeL, hne, Bool.false_eq_true, if_false, hc]
    simp

theorem normalizeL_heur_eq {line p0 p1 : List Char} {ps : List (List Char)}
    (hne : (stripL line).isEmpty = false)
    (hcmt : ∀ c, (stripL line).head? = some c → c ≠ '!' ∧ c ≠ '[' ∧ c ≠ '#')
    (hrx : rxHostsMatch (stripL line) = none)
    (hsp : splitWs (stripL line) = p0 :: p1 :: ps)
    (hcond : countChar '.' p0 ≥ 1 ∧ hostPat p1 = true) :
    normalizeL line = '|' :: '|' :: (rstripDots (toLowerL (stripL p1)) ++ ['^']) := by
  obtain ⟨c, cs, hl⟩ : ∃ c cs, stripL line = c :: cs := by
    cases h : stripL line with
    | nil => rw [h] at hne; simp at hne
    | cons a as => exact ⟨a, as, rfl⟩
  have hc := hcmt c (by rw [hl]; rfl)
  have hg2 : (decide ((stripL line).head? = some '!') ||
      decide ((stripL line).head? = some '[')) = false := by
    rw [hl]
    simp [hc.1, hc.2.1]
  have hg3 : ¬ ((stripL line).head? = some '#') := by
    rw [hl]
    simp [hc.2.2]
  simp only [normalizeL, hne, Bool.false_eq_true, if_false, hg2, hrx]
  rw [if_neg hg3]
  rw [hsp]
  have hcondb : (decide (countChar '.' p0 ≥ 1) && hostPat p1) = true := by
    simp [hcond.1, hcond.2]
  show (if (decide (countChar '.' p0 ≥ 1) && hostPat p1) = true then
      '|' :: '|' :: (rstripDots (toLowerL (stripL p1)) ++ ['^'])
    else nativeNorm (stripL line)) =
    '|' :: '|' :: (rstripDots (toLowerL (stripL p1)) ++ ['^'])
  rw [hcondb, if_pos rfl]

theorem isHostChar_not_space {c : Char} (h : isHostChar c = true) : isSpace c = false := by
  have e : ('A'.toNat = 65 ∧ 'Z'.toNat = 90 ∧ 'a'.toNat = 97 ∧ 'z'.toNat = 122 ∧
      '0'.toNat = 48 ∧ '9'.toNat = 57 ∧ '.'.toNat = 46 ∧ '-'.toNat = 45) := by decide
  obtain ⟨e1, e2, e3, e4, e5, e6, e7, e8⟩ := e
  unfold isHostChar at h
  rw [isSpace_iff_toNat]
  simp only [Bool.or_eq_true, Bool.and_eq_true, decide_eq_true_eq, char_le_iff_toNat,
    char_eq_iff_toNat, e1, e2, e3, e4, e5, e6, e7, e8] at h
  apply Bool.eq_false_iff.mpr
  intro hb
  simp only [Bool.or_eq_true, decide_eq_true_eq] at hb
  omega

/-! ## Transfer lemmas: collapsing and lower-casing cannot create a hosts
match or a heuristic match that was not already present (C4) -/

theorem prefix_cl : ∀ (a l : List Char),
    (∀ c ∈ a, isSpace c = false ∧ toLowerChar c = c ∧ (c.toNat < 97 ∨ 122 < c.toNat)) →
    a.isPrefixOf (toLowerL (collapseWs l)) = true →
    ∃ l', l = a ++ l' ∧ toLowerL (collapseWs l) = a ++ toLowerL (collapseWs l') := by
  intro a
  induction a with
  | nil => intro l _ _; exact ⟨l, rfl, rfl⟩
  | cons x a' ih =>
    intro l ha hp
    cases l with
    | nil =>
      exact absurd hp (by simp [collapseWs, collapseAux, toLowerL, List.isPrefixOf])
    | cons c cs =>
      have hx := ha x (List.mem_cons_self x a')
      by_cases hc : isSpace c
      · exfalso
        rw [collapseWs_cons, if_pos hc] at hp
        rw [show toLowerL (' ' :: collapseWs (cs.dropWhile isSpace)) =
          toLowerChar ' ' :: toLowerL (collapseWs (cs.dropWhile isSpace)) from rfl,
          show toLowerChar ' ' = ' ' from by decide] at hp
        simp only [List.isPrefixOf, Bool.and_eq_true, beq_iff_eq] at hp
        have : isSpace x = true := by rw [hp.1]; decide
        rw [hx.1] at this
        exact absurd this (by simp)
      · rw [collapseWs_cons, if_neg (by simp [hc])] at hp
        rw [show toLowerL (c :: collapseWs cs) =
          toLowerChar c :: toLowerL (collapseWs cs) from rfl] at hp
        simp only [List.isPrefixOf, Bool.and_eq_true, beq_iff_eq] at hp
        have hcx : c = x := toLowerChar_preimage hx.2.2 hp.1.symm
        obtain ⟨l', hl', hcl⟩ := ih cs (fun c' hc' => ha c' (List.mem_cons_of_mem x hc')) hp.2
        refine ⟨l', by rw [hcx, hl']; rfl, ?_⟩
        rw [collapseWs_cons, if_neg (by simp [hc])]
        rw [show toLowerL (c :: collapseWs cs) =
          toLowerChar c :: toLowerL (collapseWs cs) from rfl]
        rw [← hp.1, hcl]
        rfl

theorem afterAddr_cl {l' t : List Char}
    (h : afterAddr (toLowerL (collapseWs l')) = some t) :
    ∃ t', afterAddr l' = some t' := by
  cases l' with
  | nil => exact absurd h (by simp [collapseWs, collapseAux, toLowerL, afterAddr])
  | cons d ds =>
    by_cases hd : isSpace d
    · have hcl : toLowerL (collapseWs (d :: ds)) =
          ' ' :: toLowerL (collapseWs (ds.dropWhile isSpace)) := by
        rw [collapseWs_cons, if_pos hd]
        rw [show toLowerL (' ' :: collapseWs (ds.dropWhile isSpace)) =
          toLowerChar ' ' :: toLowerL (collapseWs (ds.dropWhile isSpace)) from rfl,
          show toLowerChar ' ' = ' ' from by decide]
      rw [hcl, afterAddr_cons, if_pos (by decide)] at h
      cases hE : ds.dropWhile isSpace with
      | nil =>
        rw [hE] at h
        exact absurd h (by simp [collapseWs, collapseAux, toLowerL])
      | cons e es =>
        have he : isSpace e = false := dropWhile_head_false hE
        have hcl2 : toLowerL (collapseWs (e :: es)) =
            toLowerChar e :: toLowerL (collapseWs es) := by
          rw [collapseWs_cons, if_neg (by simp [he])]
          rfl
        have hdrop : (toLowerChar e :: toLowerL (collapseWs es)).dropWhile isSpace =
            toLowerChar e :: toLowerL (collapseWs es) := by
          rw [List.dropWhile_cons, if_neg (by rw [isSpace_toLowerChar]; simp [he])]
        rw [hE, hcl2, hdrop] at h
        by_cases hpe : (!isSpace (toLowerChar e) && decide (toLowerChar e ≠ '#')) = true
        · have hpe' : (!isSpace e && decide (e ≠ '#')) = true := by
            simp only [Bool.and_eq_true, Bool.not_eq_eq_eq_not, Bool.not_true,
              decide_eq_true_eq] at hpe ⊢
            refine ⟨he, ?_⟩
            intro hecontra
            rw [hecontra] at hpe
            exact hpe.2 (by decide)
          refine ⟨e :: es.takeWhile (fun d => !isSpace d && decide (d ≠ '#')), ?_⟩
          rw [afterAddr_cons, if_pos hd, hE, List.takeWhile_cons, if_pos hpe',
            if_neg (by simp)]
        · exfalso
          rw [List.takeWhile_cons, if_neg hpe] at h
          simp at h
    · exfalso
      have hcl : toLowerL (collapseWs (d :: ds)) =
          toLowerChar d :: toLowerL (collapseWs ds) := by
        rw [collapseWs_cons, if_neg (by simp [hd])]
        rfl
      rw [hcl, afterAddr_nonspace (by rw [isSpace_toLowerChar]; simpa using hd)] at h
      exact absurd h (by simp)

theorem tryAddr_cl {a l t : List Char}
    (ha : ∀ c ∈ a, isSpace c = false ∧ toLowerChar c = c ∧ (c.toNat < 97 ∨ 122 < c.toNat))
    (h : tryAddr a (toLowerL (collapseWs l)) = some t) :
    ∃ t', tryAddr a l = some t' := by
  obtain ⟨hp, hAA⟩ := tryAddr_inv h
  obtain ⟨l', rfl, hcl⟩ := prefix_cl a l ha hp
  rw [hcl, List.drop_left] at hAA
  obtain ⟨t', ht'⟩ := afterAddr_cl hAA
  refine ⟨t', ?_⟩
  unfold tryAddr
  rw [if_pos (List.isPrefixOf_iff_prefix.mpr (List.prefix_append a l')), List.drop_left]
  exact ht'

theorem rx_none_all {l : List Char} (h : rxHostsMatch l = none) :
    tryAddr "0.0.0.0".data l = none ∧ tryAddr "127.0.0.1".data l = none ∧
      tryAddr "::1".data l = none ∧ tryAddr ":".data l = none ∧
      tryAddr "::".data l = none := by
  unfold rxHostsMatch at h
  rcases h0 : tryAddr "0.0.0.0".data l with _ | t0
  · rw [h0] at h
    simp only [Option.orElse] at h
    rcases h1 : tryAddr "127.0.0.1".data l with _ | t1
    · rw [h1] at h
      simp only [Option.orElse] at h
      rcases h2 : tryAddr "::1".data l with _ | t2
      · rw [h2] at h
        simp only [Option.orElse] at h
        rcases h3 : tryAddr ":".data l with _ | t3
        · rw [h3] at h
          simp only [Option.orElse] at h
          exact ⟨rfl, rfl, rfl, rfl, by simpa using h⟩
        · rw [h3] at h
          simp [Option.orElse] at h
      · rw [h2] at h
        simp [Option.orElse] at h
    · rw [h1] at h
      simp [Option.orElse] at h
  · rw [h0] at h
    simp [Option.orElse] at h

theorem rx_some_exists {l t : List Char} (h : rxHostsMatch l = some t) :
    ∃ a, (a = "0.0.0.0".data ∨ a = "127.0.0.1".data ∨ a = "::1".data ∨
      a = ":".data ∨ a = "::".data) ∧ tryAddr a l = some t := by
  unfold rxHostsMatch at h
  rcases h0 : tryAddr "0.0.0.0".data l with _ | t0
  · rw [h0] at h
    simp only [Option.orElse] at h
    rcases h1 : tryAddr "127.0.0.1".data l with _ | t1
    · rw [h1] at h
      simp only [Option.orElse] at h
      rcases h2 : tryAddr "::1".data l with _ | t2
      · rw [h2] at h
        simp only [Option.orElse] at h
        rcases h3 : tryAddr ":".data l with _ | t3
        · rw [h3] at h
          simp only [Option.orElse] at h
          exact ⟨"::".data, by tauto, by simpa using h⟩
        · rw [h3] at h
          simp only [Option.orElse] at h
          exact ⟨":".data, by tauto, h3.trans h⟩
      · rw [h2] at h
        simp only [Option.orElse] at h
        exact ⟨"::1".data, by tauto, h2.trans h⟩
    · rw [h1] at h
      simp only [Option.orElse] at h
      exact ⟨"127.0.0.1".data, by tauto, h1.trans h⟩
  · rw [h0] at h
    simp only [Option.orElse] at h
    exact ⟨"0.0.0.0".data, by tauto, h0.trans h⟩

theorem rx_none_transfer {l : List Char} (h : rxHostsMatch l = none) :
    rxHostsMatch (toLowerL (collapseWs l)) = none := by
  cases hm : rxHostsMatch (toLowerL (collapseWs l)) with
  | none => rfl
  | some t =>
    exfalso
    obtain ⟨a, ha5, hta⟩ := rx_some_exists hm
    have hchars : ∀ c ∈ a,
        isSpace c = false ∧ toLowerChar c = c ∧ (c.toNat < 97 ∨ 122 < c.toNat) := by
      rcases ha5 with rfl | rfl | rfl | rfl | rfl <;> decide
    obtain ⟨t', ht'⟩ := tryAddr_cl hchars hta
    obtain ⟨n1, n2, n3, n4, n5⟩ := rx_none_all h
    rcases ha5 with rfl | rfl | rfl | rfl | rfl <;> simp_all

theorem splitWs_cl (l : List Char) :
    splitWs (toLowerL (collapseWs l)) = (splitWs l).map toLowerL := by
  rw [← collapseWs_toLower, splitWs_collapse, splitWs_toLower]

theorem countChar_dot_toLower (q : List Char) :
    countChar '.' (toLowerL q) = countChar '.' q := by
  unfold countChar toLowerL
  rw [List.countP_map]
  apply List.countP_congr
  intro c _
  show decide (toLowerChar c = '.') = true ↔ decide (c = '.') = true
  simp only [decide_eq_true_eq]
  constructor
  · intro hc
    exact toLowerChar_preimage (by decide) hc
  · rintro rfl
    decide

theorem hostPat_toLower (q : List Char) : hostPat (toLowerL q) = hostPat q := by
  unfold hostPat toLowerL
  have hie : (List.map toLowerChar q).isEmpty = q.isEmpty := by cases q <;> rfl
  rw [hie, List.all_map]
  congr 1
  refine Bool.eq_iff_iff.mpr ?_
  simp only [List.all_eq_true, Function.comp_apply]
  constructor <;> intro hall c hc
  · rw [← isHostChar_toLowerChar c]
    exact hall c hc
  · rw [isHostChar_toLowerChar c]
    exact hall c hc

theorem heur_transfer {l : List Char}
    (hh : ∀ p0 p1 ps, splitWs l = p0 :: p1 :: ps →
      ¬ (countChar '.' p0 ≥ 1 ∧ hostPat p1 = true)) :
    ∀ p0 p1 ps, splitWs (toLowerL (collapseWs l)) = p0 :: p1 :: ps →
      ¬ (countChar '.' p0 ≥ 1 ∧ hostPat p1 = true) := by
  intro p0 p1 ps hsp hcond
  rw [splitWs_cl] at hsp
  cases hq : splitWs l with
  | nil => rw [hq] at hsp; simp at hsp
  | cons q0 qt =>
    cases qt with
    | nil => rw [hq] at hsp; simp at hsp
    | cons q1 qs =>
      rw [hq] at hsp
      simp only [List.map_cons, List.cons.injEq] at hsp
      obtain ⟨hp0, hp1, -⟩ := hsp
      apply hh q0 q1 qs hq
      constructor
      · have hcnt := countChar_dot_toLower q0
        rw [hp0] at hcnt
        rw [← hcnt]
        exact hcond.1
      · have hhp := hostPat_toLower q1
        rw [hp1] at hhp
        rw [← hhp]
        exact hcond.2

/-- A generated `||<domain>^` rule whose domain is space-free, lower-case
and `$`-free is a fixed point of the normalizer. -/
theorem normalizeL_pipe_fixed {d : List Char}
    (hns : ∀ c ∈ d, isSpace c = false)
    (hlow : ∀ c ∈ d, toLowerChar c = c)
    (hnd : '$' ∉ d) :
    normalizeL ('|' :: '|' :: (d ++ ['^'])) = '|' :: '|' :: (d ++ ['^']) := by
  have hall : ∀ c ∈ '|' :: '|' :: (d ++ ['^']), isSpace c = false := by
    intro c hc
    rcases List.mem_cons.mp hc with rfl | hc
    · decide
    rcases List.mem_cons.mp hc with rfl | hc
    · decide
    rcases List.mem_append.mp hc with hc | hc
    · exact hns c hc
    · rw [List.mem_singleton.mp hc]
      decide
  have hlowy : ∀ c ∈ '|' :: '|' :: (d ++ ['^']), toLowerChar c = c := by
    intro c hc
    rcases List.mem_cons.mp hc with rfl | hc
    · decide
    rcases List.mem_cons.mp hc with rfl | hc
    · decide
    rcases List.mem_append.mp hc with hc | hc
    · exact hlow c hc
    · rw [List.mem_singleton.mp hc]
      decide
  have hndy : '$' ∉ '|' :: '|' :: (d ++ ['^']) := by
    intro hc
    rcases List.mem_cons.mp hc with hc | hc
    · exact absurd hc (by decide)
    rcases List.mem_cons.mp hc with hc | hc
    · exact absurd hc (by decide)
    rcases List.mem_append.mp hc with hc | hc
    · exact hnd hc
    · exact absurd (List.mem_singleton.mp hc) (by decide)
  have hstrip : stripL ('|' :: '|' :: (d ++ ['^'])) = '|' :: '|' :: (d ++ ['^']) :=
    stripL_of_all_not_space hall
  have hne : (stripL ('|' :: '|' :: (d ++ ['^']))).isEmpty = false := by
    rw [hstrip]
    rfl
  have hrx : rxHostsMatch (stripL ('|' :: '|' :: (d ++ ['^']))) = none := by
    rw [hstrip]
    exact rxHostsMatch_none_of_head (by decide) (by decide) (by decide)
  have hsp1 : splitWs (stripL ('|' :: '|' :: (d ++ ['^']))) = ['|' :: '|' :: (d ++ ['^'])] := by
    rw [hstrip]
    exact splitWs_single (by simp) hall
  have heq := normalizeL_native_eq _ hne
    (by
      intro c hc
      rw [hstrip] at hc
      simp only [List.head?_cons, Option.some_inj] at hc
      rw [← hc]
      refine ⟨by decide, by decide, by decide⟩)
    hrx
    (by
      intro p0 p1 ps h
      rw [hsp1] at h
      simp at h)
  rw [heq, hstrip, nativeNorm_eq]
  have hcoll : collapseWs ('|' :: '|' :: (d ++ ['^'])) = '|' :: '|' :: (d ++ ['^']) :=
    collapse_no_space hall
  have htl : toLowerL ('|' :: '|' :: (d ++ ['^'])) = '|' :: '|' :: (d ++ ['^']) :=
    toLowerL_eq_self hlowy
  rw [hcoll, htl, if_neg (by rw [countChar_eq_zero hndy]; omega)]
  exact hstrip

/-- On the native path, the collapsed lower-cased line (without a `$`) is a
fixed point of the normalizer. -/
theorem native_renorm {w : List Char}
    (hwstrip : stripL w = w) (hwne : w ≠ [])
    (hcmt : ∀ c, w.head? = some c → c ≠ '!' ∧ c ≠ '[' ∧ c ≠ '#')
    (hrx : rxHostsMatch w = none)
    (hheur : ∀ p0 p1 ps, splitWs w = p0 :: p1 :: ps →
      ¬ (countChar '.' p0 ≥ 1 ∧ hostPat p1 = true))
    (hnd : '$' ∉ toLowerL (collapseWs w)) :
    normalizeL (toLowerL (collapseWs w)) = toLowerL (collapseWs w) := by
  have hzstrip : stripL (toLowerL (collapseWs w)) = toLowerL (collapseWs w) :=
    cl_strip_eq hwstrip
  obtain ⟨c, cs, rfl⟩ := List.exists_cons_of_ne_nil hwne
  have hcns : isSpace c = false := stripL_head_not_space hwstrip
  have hzhead : (toLowerL (collapseWs (c :: cs))).head? = some (toLowerChar c) := by
    rw [collapseWs_cons, if_neg (by simp [hcns])]
    rfl
  have hzne : (stripL (toLowerL (collapseWs (c :: cs)))).isEmpty = false := by
    rw [hzstrip]
    rcases hzl : toLowerL (collapseWs (c :: cs)) with _ | ⟨a, as⟩
    · rw [hzl] at hzhead
      simp at hzhead
    · rfl
  have hc := hcmt c rfl
  have heq := normalizeL_native_eq (toLowerL (collapseWs (c :: cs))) hzne
    (by
      intro c' hc'
      rw [hzstrip, hzhead] at hc'
      simp only [Option.some_inj] at hc'
      rw [← hc']
      refine ⟨?_, ?_, ?_⟩
      · intro he
        exact hc.1 (toLowerChar_preimage (by decide) he)
      · intro he
        exact hc.2.1 (toLowerChar_preimage (by decide) he)
      · intro he
        exact hc.2.2 (toLowerChar_preimage (by decide) he))
    (by rw [hzstrip]; exact rx_none_transfer hrx)
    (by rw [hzstrip]; exact heur_transfer hheur)
  rw [heq, hzstrip, nativeNorm_eq]
  have hcoll2 : collapseWs (toLowerL (collapseWs (c :: cs))) =
      toLowerL (collapseWs (c :: cs)) := by
    rw [collapseWs_toLower, collapseWs_idem]
  have htl2 : toLowerL (toLowerL (collapseWs (c :: cs))) = toLowerL (collapseWs (c :: cs)) :=
    toLowerL_idem _
  rw [hcoll2, htl2, if_neg (by rw [countChar_eq_zero hnd]; omega)]
  exact hzstrip

/-- C4 counterexample: normalization is not idempotent on the code — a
hosts line whose captured token contains a `$` converts to a `||…^` rule
that the second pass option-sorts differently. -/
theorem C4_counterexample :
    normalize (normalize "0.0.0.0 x$c,b") ≠ normalize "0.0.0.0 x$c,b" ∧
      normalize "0.0.0.0 x$c,b" = "||x$c,b^" ∧
      normalize (normalize "0.0.0.0 x$c,b") = "||x$b^,c" := by
  refine ⟨by decide, by decide, by decide⟩

/-- C4 (amended): normalization is idempotent on every input whose
normalized form contains no `$` character (the discard result included);
only a hosts-converted rule whose extracted domain contains a `$` can
change again on a second pass. -/
theorem C4_idempotent_no_dollar (s : String)
    (hnd : '$' ∉ (normalize s).data) :
    normalize (normalize s) = normalize s := by
  have hdata : (normalize s).data = normalizeL s.data := rfl
  rw [hdata] at hnd
  have key : normalizeL (normalizeL s.data) = normalizeL s.data := by
    by_cases h0 : stripL s.data = []
    · rw [normalizeL_empty _ h0]
      exact normalizeL_empty [] rfl
    · obtain ⟨c, cs, hl⟩ := List.exists_cons_of_ne_nil h0
      by_cases hcm : c = '!' ∨ c = '[' ∨ c = '#'
      · rw [normalizeL_comment s.data (by rw [hl]; rfl) hcm]
        exact normalizeL_empty [] rfl
      · push_neg at hcm
        have hcmt : ∀ c', (stripL s.data).head? = some c' →
            c' ≠ '!' ∧ c' ≠ '[' ∧ c' ≠ '#' := by
          intro c' hc'
          rw [hl] at hc'
          simp only [List.head?_cons, Option.some_inj] at hc'
          rw [← hc']
          exact hcm
        cases hrx : rxHostsMatch (stripL s.data) with
        | some tok =>
          have heq := normalizeL_hosts_eq hrx
          have hchars := (rxHostsMatch_inv hrx).2
          have hstok : stripL tok = tok :=
            stripL_of_all_not_space fun c' hc' => (hchars c' hc').1
          rw [hstok] at heq
          by_cases hd0 : (rstripDots (toLowerL tok)).isEmpty
          · rw [heq, if_pos hd0]
            exact normalizeL_empty [] rfl
          · rw [heq, if_neg hd0] at hnd ⊢
            have hdns : ∀ c' ∈ rstripDots (toLowerL tok), isSpace c' = false := by
              intro c' hc'
              obtain ⟨c0, hc0, rfl⟩ := List.mem_map.mp (mem_rstripDots hc')
              rw [isSpace_toLowerChar]
              exact (hchars c0 hc0).1
            have hdlow : ∀ c' ∈ rstripDots (toLowerL tok), toLowerChar c' = c' := by
              intro c' hc'
              obtain ⟨c0, _, rfl⟩ := List.mem_map.mp (mem_rstripDots hc')
              exact toLowerChar_idem c0
            have hdnd : '$' ∉ rstripDots (toLowerL tok) := fun hc' =>
              hnd (List.mem_cons_of_mem '|' (List.mem_cons_of_mem '|'
                (List.mem_append_left _ hc')))
            exact normalizeL_pipe_fixed hdns hdlow hdnd
        | none =>
          have hnative : (∀ p0 p1 ps, splitWs (stripL s.data) = p0 :: p1 :: ps →
              ¬ (countChar '.' p0 ≥ 1 ∧ hostPat p1 = true)) →
              normalizeL (normalizeL s.data) = normalizeL s.data := by
            intro hheur
            have hne : (stripL s.data).isEmpty = false := by
              rw [hl]
              rfl
            have heq := normalizeL_native_eq _ hne hcmt hrx hheur
            have hwstrip : stripL (stripL s.data) = stripL s.data := stripL_idem s.data
            by_cases hcount : countChar '$' (toLowerL (collapseWs (stripL s.data))) = 1
            · exfalso
              rw [heq, nativeNorm_eq, if_pos hcount, optSort_strip_eq, optSort_eq] at hnd
              exact hnd (List.mem_append_right _ (List.mem_cons_self '$' _))
            · rw [heq, nativeNorm_eq, if_neg hcount, cl_strip_eq hwstrip] at hnd ⊢
              exact native_renorm hwstrip (by rw [hl]; simp) hcmt hrx hheur hnd
          cases hsp : splitWs (stripL s.data) with
          | nil =>
            apply hnative
            intro p0 p1 ps h
            rw [hsp] at h
            simp at h
          | cons p0 pt =>
            cases pt with
            | nil =>
              apply hnative
              intro p0' p1' ps' h
              rw [hsp] at h
              simp at h
            | cons p1 ps =>
              by_cases hcond : countChar '.' p0 ≥ 1 ∧ hostPat p1 = true
              · have hne : (stripL s.data).isEmpty = false := by
                  rw [hl]
                  rfl
                have heq := normalizeL_heur_eq hne hcmt hrx hsp hcond
                rw [heq] at hnd ⊢
                have hp1chars : ∀ c' ∈ p1, isHostChar c' = true := by
                  have hh := hcond.2
                  unfold hostPat at hh
                  rw [Bool.and_eq_true, List.all_eq_true] at hh
                  exact hh.2
                have hdns : ∀ c' ∈ rstripDots (toLowerL (stripL p1)),
                    isSpace c' = false := by
                  intro c' hc'
                  obtain ⟨c0, hc0, rfl⟩ := List.mem_map.mp (mem_rstripDots hc')
                  rw [isSpace_toLowerChar]
                  exact isHostChar_not_space (hp1chars c0 (mem_stripL hc0))
                have hdlow : ∀ c' ∈ rstripDots (toLowerL (stripL p1)),
                    toLowerChar c' = c' := by
                  intro c' hc'
                  obtain ⟨c0, _, rfl⟩ := List.mem_map.mp (mem_rstripDots hc')
                  exact toLowerChar_idem c0
                have hdnd : '$' ∉ rstripDots (toLowerL (stripL p1)) := fun hc' =>
                  hnd (List.mem_cons_of_mem '|' (List.mem_cons_of_mem '|'
                    (List.mem_append_left _ hc')))
                exact normalizeL_pipe_fixed hdns hdlow hdnd
              · apply hnative
                intro p0' p1' ps' h
                rw [hsp] at h
                simp only [List.cons.injEq] at h
                obtain ⟨rfl, rfl, rfl⟩ := h
                exact hcond
  show (⟨normalizeL (normalize s).data⟩ : String) = normalize s
  rw [hdata, key]
  rfl

/-- C4 witness: a concrete `$`-free line is unchanged by a second pass. -/
theorem C4_idempotent_no_dollar_witness :
    '$' ∉ (normalize "0.0.0.0 Example.COM.").data ∧
      normalize (normalize "0.0.0.0 Example.COM.") = normalize "0.0.0.0 Example.COM." :=
  ⟨by decide, C4_idempotent_no_dollar "0.0.0.0 Example.COM." (by decide)⟩

end CombineFilters
